import Mathlib

/-!
# unityweb: the UnityWebData1.0 archive codec

A shallow embedding of the Go package `unityweb` (`utils.go`, `errors.go`,
`file.go`, `metadata.go`, `package.go`) and theorems about it.

Conventions of the embedding.
* A byte is a `Fin 256`; a `[]byte` is a `List Byte`.
* A `uint32` is a `Nat`; every `uint32` operation that can overflow is followed
  by `% 2 ^ 32`, every conversion `uint32(n)` is `n % 2 ^ 32` and every
  conversion `byte(n)` is `n % 256`.
* A method with a pointer receiver that mutates it returns the new receiver.
* A Go run-time panic (index or slice bound out of range) is `none` for the
  functions that return no `error`, and `Outcome.panic` for those that do.
* An `*os.File` opened for reading is the list of the bytes at and after its
  cursor: a read removes what it returns from the front of that list, and one
  read call returns at most `1 << 30` bytes.
-/

namespace UnityWeb

/-! ## Bytes and slices -/

/-- One byte. -/
abbrev Byte := Fin 256

/-- Conversion `byte(n)` of an unsigned integer: the low eight bits. -/
def toByte (n : Nat) : Byte := ⟨n % 256, Nat.mod_lt n (by decide)⟩

/-- Builtin `make([]byte, n)`: a slice of `n` zero bytes. -/
def make (n : Nat) : List Byte := List.replicate n 0

/-- Builtin `copy(dst, src)`: overwrites the first `min (len dst) (len src)`
bytes of `dst` with those of `src`; returns the new `dst`. -/
def copy (dst src : List Byte) : List Byte :=
  src.take (min dst.length src.length) ++ dst.drop (min dst.length src.length)

/-- Statement `copy(bytes[low:], src)`: the slice expression panics when
`low > len(bytes)`; otherwise the copy writes through to `bytes` from index
`low` on. Returns the new `bytes`. -/
def copyAt (bytes : List Byte) (low : Nat) (src : List Byte) : Option (List Byte) :=
  if low ≤ bytes.length then some (bytes.take low ++ copy (bytes.drop low) src) else none

/-! ## utils.go -/

/-- Go `bytesToUint32LE`:
`uint32(b[3])<<24 | uint32(b[2])<<16 | uint32(b[1])<<8 | uint32(b[0])`.
Indexing past the end of `b` panics (`none`). -/
def bytesToUint32LE (b : List Byte) : Option Nat :=
  match b[3]?, b[2]?, b[1]?, b[0]? with
  | some b3, some b2, some b1, some b0 =>
    some (((b3.val <<< 24) % 2 ^ 32) ||| ((b2.val <<< 16) % 2 ^ 32)
      ||| ((b1.val <<< 8) % 2 ^ 32) ||| b0.val)
  | _, _, _, _ => none

/-- Go `uint32LEToBytes`:
`[]byte{byte(i), byte(i >> 8), byte(i >> 16), byte(i >> 24)}`. -/
def uint32LEToBytes (i : Nat) : List Byte :=
  [toByte i, toByte (i >>> 8), toByte (i >>> 16), toByte (i >>> 24)]

/-! ## errors.go, and the errors of `os.File.Read` -/

/-- The `error` values the decoder can return: `io.EOF` from `os.File.Read`,
and the package's own `ParseError` constant `ErrInvalidMagicHeader`. -/
inductive Err where
  | EOF
  | ErrInvalidMagicHeader
  deriving DecidableEq, Repr

/-- How a call that returns an `error` ends: it returns `nil`, it returns a
non-nil error, it panics, or (for the loop model only) it is still running
when its step budget is used up. -/
inductive Outcome where
  | nil
  | err (e : Err)
  | panic
  | diverge
  deriving DecidableEq, Repr

/-- Go `ParseError.Error`. -/
def ParseError.Error (e : Err) : String :=
  match e with
  | Err.ErrInvalidMagicHeader => "invalid magic header"
  | _ => "parse error"

/-! ## os.File.Read -/

/-- What `file.Read(b)` leaves behind: the count and error it returns, the
buffer `b` after the call and the file (its unread bytes) after the call. -/
structure ReadResult where
  n : Nat
  err : Option Err
  buf : List Byte
  file : List Byte
  deriving DecidableEq, Repr

/-- The most bytes one `(*os.File).Read` call transfers: the Go runtime
(`internal/poll`, constant `maxRW`) cuts the buffer of a single read to
`1 << 30` bytes. -/
def maxRW : Nat := 2 ^ 30

/-- Method `(*os.File).Read` on a regular file: one call with a buffer of `k`
bytes returns `min k (1 << 30) remaining` bytes, stored at the front of the
buffer, and fails with `io.EOF` only when `k > 0` and nothing remains. -/
def Read (file : List Byte) (b : List Byte) : ReadResult :=
  if b.length = 0 then ⟨0, none, b, file⟩
  else if file.length = 0 then ⟨0, some Err.EOF, b, file⟩
  else
    let n := min (min b.length maxRW) file.length
    ⟨n, none, file.take n ++ b.drop n, file.drop n⟩

/-! ## file.go -/

/-- Go `File`. -/
structure File where
  Contents : List Byte
  deriving DecidableEq, Repr

/-- Go `NewFile`. -/
def NewFile (contents : List Byte) : File := ⟨contents⟩

/-! ## metadata.go -/

/-- Go constant `offsetFieldBytes`. -/
def offsetFieldBytes : Nat := 4
/-- Go constant `sizeFieldBytes`. -/
def sizeFieldBytes : Nat := 4
/-- Go constant `filenameSizeFieldBytes`. -/
def filenameSizeFieldBytes : Nat := 4

/-- Go `FileMetadata`; the three `uint32` fields are naturals. -/
structure FileMetadata where
  Offset : Nat
  Size : Nat
  FilenameLength : Nat
  Filename : List Byte
  deriving DecidableEq, Repr

/-- The zero value `FileMetadata{}`. -/
def FileMetadata.zero : FileMetadata := ⟨0, 0, 0, []⟩

/-- Go `NewFileMetadata`; `filename` is the byte sequence of the Go string. -/
def NewFileMetadata (filename : List Byte) (contents : List Byte) : FileMetadata :=
  { Offset := 0
    Size := contents.length % 2 ^ 32
    FilenameLength := filename.length % 2 ^ 32
    Filename := filename }

/-- Go `FileMetadata.BlockSize`, in `uint32` arithmetic. -/
def FileMetadata.BlockSize (m : FileMetadata) : Nat :=
  (((m.FilenameLength + offsetFieldBytes) % 2 ^ 32 + sizeFieldBytes) % 2 ^ 32
    + filenameSizeFieldBytes) % 2 ^ 32

/-- Go `FileMetadata.FromPackageFile`: four reads, each followed by the
assignment of the field read. Returns the receiver as the call leaves it,
the file, and how the call ended. -/
def FileMetadata.FromPackageFile (m : FileMetadata) (file : List Byte) :
    FileMetadata × List Byte × Outcome :=
  let r1 := Read file (make offsetFieldBytes)
  match r1.err with
  | some e => (m, r1.file, Outcome.err e)
  | none =>
  match bytesToUint32LE r1.buf with
  | none => (m, r1.file, Outcome.panic)
  | some off =>
  let m1 := { m with Offset := off }
  let r2 := Read r1.file (make sizeFieldBytes)
  match r2.err with
  | some e => (m1, r2.file, Outcome.err e)
  | none =>
  match bytesToUint32LE r2.buf with
  | none => (m1, r2.file, Outcome.panic)
  | some sz =>
  let m2 := { m1 with Size := sz }
  let r3 := Read r2.file (make filenameSizeFieldBytes)
  match r3.err with
  | some e => (m2, r3.file, Outcome.err e)
  | none =>
  match bytesToUint32LE r3.buf with
  | none => (m2, r3.file, Outcome.panic)
  | some fl =>
  let m3 := { m2 with FilenameLength := fl }
  let r4 := Read r3.file (make m3.FilenameLength)
  let m4 := { m3 with Filename := r4.buf }
  match r4.err with
  | some e => (m4, r4.file, Outcome.err e)
  | none => (m4, r4.file, Outcome.nil)

/-- Go `FileMetadata.ToBytes`; `none` when one of the three slice
expressions `bytes[4:]`, `bytes[8:]`, `bytes[12:]` panics. -/
def FileMetadata.ToBytes (m : FileMetadata) : Option (List Byte) :=
  let bytes := make m.BlockSize
  let offsetBytes := uint32LEToBytes m.Offset
  let sizeBytes := uint32LEToBytes m.Size
  let filenameSizeBytes := uint32LEToBytes m.FilenameLength
  let bytes := copy bytes offsetBytes
  match copyAt bytes offsetFieldBytes sizeBytes with
  | none => none
  | some bytes =>
  match copyAt bytes (offsetFieldBytes + sizeFieldBytes) filenameSizeBytes with
  | none => none
  | some bytes =>
  copyAt bytes (offsetFieldBytes + sizeFieldBytes + filenameSizeFieldBytes) m.Filename

/-! ## package.go -/

/-- Go constant `magicFieldBytes`. -/
def magicFieldBytes : Nat := 16
/-- Go constant `startOffsetFieldBytes`. -/
def startOffsetFieldBytes : Nat := 4

/-- Go `Package`. The array `Magic [16]byte` is a list of bytes (16 of them
in every package made by `NewPackage`; no operation changes its length). -/
structure Package where
  Magic : List Byte
  StartOffset : Nat
  FileMetadata : List FileMetadata
  Files : List File
  deriving DecidableEq, Repr

/-- The ASCII bytes of the string literal `"UnityWebData1.0"`. -/
def magicString : List Byte :=
  [85, 110, 105, 116, 121, 87, 101, 98, 68, 97, 116, 97, 49, 46, 48]

/-- Go `NewPackage`: the magic header, and zero values elsewhere. -/
def NewPackage : Package :=
  { Magic := [85, 110, 105, 116, 121, 87, 101, 98, 68, 97, 116, 97, 49, 46, 48, 0]
    StartOffset := 0
    FileMetadata := []
    Files := [] }

/-- Go `Package.AddFile`. -/
def Package.AddFile (p : Package) (filename : List Byte) (contents : List Byte) : Package :=
  let file := NewFile contents
  let metadata := NewFileMetadata filename contents
  { p with Files := p.Files ++ [file], FileMetadata := p.FileMetadata ++ [metadata] }

/-- First loop of `RecalculateOffsets`:
`metadataBlockSizes += p.FileMetadata[i].BlockSize()` over the entries. -/
def sumBlockSizes : List UnityWeb.FileMetadata → Nat → Nat
  | [], acc => acc
  | m :: ms, acc => sumBlockSizes ms ((acc + m.BlockSize) % 2 ^ 32)

/-- Second loop of `RecalculateOffsets`:
`p.FileMetadata[i].Offset = offset; offset += p.FileMetadata[i].Size`. -/
def assignOffsets : List UnityWeb.FileMetadata → Nat → List UnityWeb.FileMetadata
  | [], _ => []
  | m :: ms, offset =>
    { m with Offset := offset } :: assignOffsets ms ((offset + m.Size) % 2 ^ 32)

/-- Go `Package.RecalculateOffsets`. -/
def Package.RecalculateOffsets (p : Package) : Package :=
  if p.FileMetadata.length = 0 then p
  else
    let metadataBlockSizes := sumBlockSizes p.FileMetadata 0
    let startOffset :=
      ((magicFieldBytes + startOffsetFieldBytes) % 2 ^ 32 + metadataBlockSizes) % 2 ^ 32
    { p with StartOffset := startOffset
             FileMetadata := assignOffsets p.FileMetadata startOffset }

/-- The loop `for bytesRead < p.StartOffset` of `ReadFromPackageFile`, with a
budget of iterations: each iteration reads one metadata block into a zero
`FileMetadata`, appends it and adds its `BlockSize` to `bytesRead`. -/
def readMetadataLoop : Nat → Package → List Byte → Nat → Package × List Byte × Outcome
  | 0, p, file, bytesRead =>
    if bytesRead < p.StartOffset then (p, file, Outcome.diverge) else (p, file, Outcome.nil)
  | fuel + 1, p, file, bytesRead =>
    if bytesRead < p.StartOffset then
      match FileMetadata.FromPackageFile FileMetadata.zero file with
      | (metadata, file1, Outcome.nil) =>
        readMetadataLoop fuel { p with FileMetadata := p.FileMetadata ++ [metadata] } file1
          ((bytesRead + metadata.BlockSize) % 2 ^ 32)
      | (_, file1, o) => (p, file1, o)
    else (p, file, Outcome.nil)

/-- The loop `for i := range p.FileMetadata` of `ReadFromPackageFile`, over
the entries still to visit: reads `Size` bytes into a fresh buffer and
appends it to `p.Files`. -/
def readFilesLoop : List UnityWeb.FileMetadata → Package → List Byte →
    Package × List Byte × Outcome
  | [], p, file => (p, file, Outcome.nil)
  | m :: ms, p, file =>
    let r := Read file (make m.Size)
    match r.err with
    | some e => (p, r.file, Outcome.err e)
    | none => readFilesLoop ms { p with Files := p.Files ++ [{ Contents := r.buf }] } r.file

/-- Go `Package.ReadFromPackageFile`. Returns the receiver as the call leaves
it, the file, and how the call ended. The metadata loop is given one
iteration per unread byte, plus one. -/
def Package.ReadFromPackageFile (p : Package) (file : List Byte) :
    Package × List Byte × Outcome :=
  let r := Read file p.Magic
  let p := { p with Magic := r.buf }
  match r.err with
  | some e => (p, r.file, Outcome.err e)
  | none =>
  if p.Magic.take (p.Magic.length - 1) ≠ magicString then
    (p, r.file, Outcome.err Err.ErrInvalidMagicHeader)
  else
  let r2 := Read r.file (make startOffsetFieldBytes)
  match r2.err with
  | some e => (p, r2.file, Outcome.err e)
  | none =>
  match bytesToUint32LE r2.buf with
  | none => (p, r2.file, Outcome.panic)
  | some so =>
  let p := { p with StartOffset := so }
  let bytesRead := (magicFieldBytes + startOffsetFieldBytes) % 2 ^ 32
  match readMetadataLoop (r2.file.length + 1) p r2.file bytesRead with
  | (p, file, Outcome.nil) => readFilesLoop p.FileMetadata p file
  | res => res

/-- First loop of `Pack`: appends each entry's `ToBytes()` to the buffer. -/
def packMetadata : List UnityWeb.FileMetadata → List Byte → Option (List Byte)
  | [], buffer => some buffer
  | m :: ms, buffer =>
    match m.ToBytes with
    | none => none
    | some bs => packMetadata ms (buffer ++ bs)

/-- Second loop of `Pack`: appends each file's `Contents` to the buffer. -/
def packFiles : List File → List Byte → List Byte
  | [], buffer => buffer
  | f :: fs, buffer => packFiles fs (buffer ++ f.Contents)

/-- Go `Package.Pack`: the receiver after the call and the bytes returned;
`none` when a `ToBytes` call panics. -/
def Package.Pack (p : Package) : Option (Package × List Byte) :=
  let p := p.RecalculateOffsets
  let buffer : List Byte := make 0
  let buffer := buffer ++ p.Magic
  let buffer := buffer ++ uint32LEToBytes p.StartOffset
  match packMetadata p.FileMetadata buffer with
  | none => none
  | some buffer => some (p, packFiles p.Files buffer)

/-! ## Packages built by `AddFile` -/

/-- The package obtained from `NewPackage()` by calling `AddFile(name, contents)`
for each pair of the list, in order. -/
def buildPackage (entries : List (List Byte × List Byte)) : Package :=
  entries.foldl (fun p e => p.AddFile e.1 e.2) NewPackage

/-! ## Specification-side notions -/

/-- The metadata block as the format lays it out:
`LE32(Offset) ++ LE32(Size) ++ LE32(FilenameLength) ++ Filename`. -/
def metadataBlock (m : FileMetadata) : List Byte :=
  uint32LEToBytes m.Offset ++ uint32LEToBytes m.Size ++ uint32LEToBytes m.FilenameLength
    ++ m.Filename

/-- The number of bytes of the archive that holds the entries `(name, contents)`:
16 of magic, 4 of start offset, and for each entry a block of `12 + len(name)`
bytes and `len(contents)` bytes of payload. -/
def encodedLength (entries : List (List Byte × List Byte)) : Nat :=
  20 + (entries.map (fun e => 12 + e.1.length)).sum + (entries.map (fun e => e.2.length)).sum

/-- The little-endian value of the four bytes of `input` at positions `pos` to
`pos + 3`, a byte past the end of `input` counting as zero. -/
def le32At (input : List Byte) (pos : Nat) : Nat :=
  (input.getD pos 0).val + 2 ^ 8 * (input.getD (pos + 1) 0).val
    + 2 ^ 16 * (input.getD (pos + 2) 0).val + 2 ^ 24 * (input.getD (pos + 3) 0).val

/-! # Theorems -/

/-! ## Little-endian words -/

theorem bytesToUint32LE_quad (b0 b1 b2 b3 : Byte) (rest : List Byte) :
    bytesToUint32LE (b0 :: b1 :: b2 :: b3 :: rest)
      = some (b0.val + 2 ^ 8 * b1.val + 2 ^ 16 * b2.val + 2 ^ 24 * b3.val) := by
  have h0 := b0.isLt
  have h1 := b1.isLt
  have h2 := b2.isLt
  have h3 := b3.isLt
  simp only [bytesToUint32LE, List.getElem?_cons_succ, List.getElem?_cons_zero, Option.some.injEq]
  have e3 : (b3.val <<< 24) % 2 ^ 32 = 2 ^ 24 * b3.val := by
    rw [Nat.shiftLeft_eq]; omega
  have e2 : (b2.val <<< 16) % 2 ^ 32 = 2 ^ 16 * b2.val := by
    rw [Nat.shiftLeft_eq]; omega
  have e1 : (b1.val <<< 8) % 2 ^ 32 = 2 ^ 8 * b1.val := by
    rw [Nat.shiftLeft_eq]; omega
  rw [e3, e2, e1]
  have s1 : 2 ^ 24 * b3.val ||| 2 ^ 16 * b2.val = 2 ^ 16 * (2 ^ 8 * b3.val + b2.val) := by
    rw [← Nat.mul_add_lt_is_or (by omega)]; omega
  have s2 : 2 ^ 16 * (2 ^ 8 * b3.val + b2.val) ||| 2 ^ 8 * b1.val
      = 2 ^ 8 * (2 ^ 8 * (2 ^ 8 * b3.val + b2.val) + b1.val) := by
    rw [← Nat.mul_add_lt_is_or (by omega)]; omega
  rw [s1, s2, ← Nat.mul_add_lt_is_or (by omega)]
  omega

theorem uint32LEToBytes_val (x : Nat) :
    uint32LEToBytes x
      = [toByte x, toByte (x / 2 ^ 8), toByte (x / 2 ^ 16), toByte (x / 2 ^ 24)] := by
  simp only [uint32LEToBytes, Nat.shiftRight_eq_div_pow]

theorem uint32LEToBytes_length (x : Nat) : (uint32LEToBytes x).length = 4 := rfl

theorem bytesToUint32LE_uint32LEToBytes (x : Nat) (rest : List Byte) :
    bytesToUint32LE (uint32LEToBytes x ++ rest) = some (x % 2 ^ 32) := by
  rw [uint32LEToBytes_val]
  simp only [List.cons_append, List.nil_append, bytesToUint32LE_quad, toByte, Option.some.injEq]
  omega

theorem uint32LEToBytes_of_bytes (b0 b1 b2 b3 : Byte) :
    uint32LEToBytes (b0.val + 2 ^ 8 * b1.val + 2 ^ 16 * b2.val + 2 ^ 24 * b3.val)
      = [b0, b1, b2, b3] := by
  have h0 := b0.isLt
  have h1 := b1.isLt
  have h2 := b2.isLt
  have h3 := b3.isLt
  rw [uint32LEToBytes_val]
  simp only [toByte, List.cons.injEq, and_true]
  refine ⟨?_, ?_, ?_, ?_⟩ <;> apply Fin.ext <;> simp only <;> omega

/-- A buffer of at least four bytes always decodes, to a value below `2 ^ 32`. -/
theorem bytesToUint32LE_of_length (b : List Byte) (hb : 4 ≤ b.length) :
    ∃ v, bytesToUint32LE b = some v ∧ v < 2 ^ 32 := by
  match b, hb with
  | b0 :: b1 :: b2 :: b3 :: rest, _ =>
    refine ⟨_, bytesToUint32LE_quad b0 b1 b2 b3 rest, ?_⟩
    have h0 := b0.isLt
    have h1 := b1.isLt
    have h2 := b2.isLt
    have h3 := b3.isLt
    omega

/-! ## Slices -/

theorem make_length (n : Nat) : (make n).length = n := by
  simp [make]

theorem copy_length (dst src : List Byte) : (copy dst src).length = dst.length := by
  simp only [copy, List.length_append, List.length_take, List.length_drop]
  omega

theorem copy_of_le (dst src : List Byte) (h : src.length ≤ dst.length) :
    copy dst src = src ++ dst.drop src.length := by
  simp only [copy, Nat.min_eq_right h, List.take_length]

theorem copyAt_of_le (bytes : List Byte) (low : Nat) (src : List Byte)
    (h : low + src.length ≤ bytes.length) :
    copyAt bytes low src = some (bytes.take low ++ (src ++ bytes.drop (low + src.length))) := by
  have h1 : low ≤ bytes.length := by omega
  have h2 : src.length ≤ (bytes.drop low).length := by
    rw [List.length_drop]; omega
  simp only [copyAt, h1, if_true, copy_of_le _ _ h2, List.drop_drop, Nat.add_comm]

theorem make_drop (n k : Nat) : (make n).drop k = make (n - k) := by
  simp [make]

theorem copy_make (n : Nat) (src : List Byte) (h : src.length ≤ n) :
    copy (make n) src = src ++ make (n - src.length) := by
  rw [copy_of_le _ _ (by rw [make_length]; exact h), make_drop]

theorem copyAt_append_make (pre : List Byte) (low n : Nat) (src : List Byte)
    (hp : pre.length = low) (h : src.length ≤ n) :
    copyAt (pre ++ make n) low src = some ((pre ++ src) ++ make (n - src.length)) := by
  subst hp
  simp only [copyAt, List.length_append, Nat.le_add_right, if_true, List.take_left',
    List.drop_left', copy_make _ _ h, List.append_assoc]

/-! ## Metadata blocks -/

theorem BlockSize_eq (m : FileMetadata) (h : m.FilenameLength + 12 < 2 ^ 32) :
    m.BlockSize = 12 + m.FilenameLength := by
  simp only [FileMetadata.BlockSize, offsetFieldBytes, sizeFieldBytes, filenameSizeFieldBytes]
  omega

theorem metadataBlock_length (m : FileMetadata) :
    (metadataBlock m).length = 12 + m.Filename.length := by
  simp only [metadataBlock, List.length_append, uint32LEToBytes_length]

theorem ToBytes_eq (m : FileMetadata) (hlen : m.FilenameLength = m.Filename.length)
    (h : m.FilenameLength + 12 < 2 ^ 32) : m.ToBytes = some (metadataBlock m) := by
  have hbs := BlockSize_eq m h
  have l1 := uint32LEToBytes_length m.Offset
  have l2 := uint32LEToBytes_length m.Size
  have l3 := uint32LEToBytes_length m.FilenameLength
  have c0 : copy (make (12 + m.FilenameLength)) (uint32LEToBytes m.Offset)
      = uint32LEToBytes m.Offset ++ make (8 + m.FilenameLength) := by
    rw [copy_make _ _ (by omega), l1]
    congr 2
    omega
  have c1 : copyAt (uint32LEToBytes m.Offset ++ make (8 + m.FilenameLength)) 4
      (uint32LEToBytes m.Size)
      = some ((uint32LEToBytes m.Offset ++ uint32LEToBytes m.Size)
          ++ make (4 + m.FilenameLength)) := by
    rw [copyAt_append_make _ _ _ _ l1 (by omega), l2]
    congr 3
    omega
  have c2 : copyAt ((uint32LEToBytes m.Offset ++ uint32LEToBytes m.Size)
        ++ make (4 + m.FilenameLength)) 8 (uint32LEToBytes m.FilenameLength)
      = some ((uint32LEToBytes m.Offset ++ uint32LEToBytes m.Size
          ++ uint32LEToBytes m.FilenameLength) ++ make m.FilenameLength) := by
    rw [copyAt_append_make _ _ _ _ (by rw [List.length_append, l1, l2]) (by omega), l3]
    congr 3
    omega
  have c3 : copyAt ((uint32LEToBytes m.Offset ++ uint32LEToBytes m.Size
        ++ uint32LEToBytes m.FilenameLength) ++ make m.FilenameLength) 12 m.Filename
      = some (metadataBlock m) := by
    rw [copyAt_append_make _ _ _ _
      (by rw [List.length_append, List.length_append, l1, l2, l3]) (by omega)]
    have hz : m.FilenameLength - m.Filename.length = 0 := by omega
    rw [hz]
    simp [make, metadataBlock]
  simp only [FileMetadata.ToBytes, offsetFieldBytes, sizeFieldBytes, filenameSizeFieldBytes,
    hbs, c0, c1, c2, c3]

/-! ## Pack -/

theorem packMetadata_eq (ms : List FileMetadata) (buffer : List Byte) :
    packMetadata ms buffer
      = (ms.mapM FileMetadata.ToBytes).map (fun blocks => buffer ++ blocks.flatten) := by
  induction ms generalizing buffer with
  | nil =>
    rw [packMetadata, List.mapM_nil]
    simp
  | cons m ms ih =>
    rw [packMetadata, List.mapM_cons]
    cases hm : m.ToBytes with
    | none => simp
    | some bs =>
      simp only [ih]
      cases hms : List.mapM FileMetadata.ToBytes ms with
      | none => simp
      | some bl => simp

theorem packFiles_eq (fs : List File) (buffer : List Byte) :
    packFiles fs buffer = buffer ++ (fs.map File.Contents).flatten := by
  induction fs generalizing buffer with
  | nil => simp [packFiles]
  | cons f fs ih => simp [packFiles, ih]

theorem Pack_eq (p : Package) :
    p.Pack = (p.RecalculateOffsets.FileMetadata.mapM FileMetadata.ToBytes).map (fun blocks =>
      (p.RecalculateOffsets,
        p.RecalculateOffsets.Magic ++ uint32LEToBytes p.RecalculateOffsets.StartOffset
          ++ blocks.flatten ++ (p.RecalculateOffsets.Files.map File.Contents).flatten)) := by
  simp only [Package.Pack, packMetadata_eq, packFiles_eq, make, List.replicate_zero,
    List.nil_append]
  cases List.mapM FileMetadata.ToBytes p.RecalculateOffsets.FileMetadata with
  | none => rfl
  | some bl => rfl

/-! ## RecalculateOffsets -/

theorem sumBlockSizes_eq (ms : List FileMetadata) (acc : Nat)
    (h : acc + (ms.map (fun m => 12 + m.FilenameLength)).sum < 2 ^ 32) :
    sumBlockSizes ms acc = acc + (ms.map (fun m => 12 + m.FilenameLength)).sum := by
  induction ms generalizing acc with
  | nil => simp [sumBlockSizes]
  | cons m ms ih =>
    simp only [List.map_cons, List.sum_cons] at h ⊢
    have hb : m.BlockSize = 12 + m.FilenameLength := BlockSize_eq m (by omega)
    rw [sumBlockSizes, hb, Nat.mod_eq_of_lt (by omega), ih _ (by omega)]
    omega

theorem assignOffsets_length (ms : List FileMetadata) (off : Nat) :
    (assignOffsets ms off).length = ms.length := by
  induction ms generalizing off with
  | nil => rfl
  | cons m ms ih => simp [assignOffsets, ih]

theorem assignOffsets_Size (ms : List FileMetadata) (off : Nat) :
    (assignOffsets ms off).map FileMetadata.Size = ms.map FileMetadata.Size := by
  induction ms generalizing off with
  | nil => rfl
  | cons m ms ih => simp [assignOffsets, ih]

theorem assignOffsets_FilenameLength (ms : List FileMetadata) (off : Nat) :
    (assignOffsets ms off).map FileMetadata.FilenameLength
      = ms.map FileMetadata.FilenameLength := by
  induction ms generalizing off with
  | nil => rfl
  | cons m ms ih => simp [assignOffsets, ih]

theorem assignOffsets_Filename (ms : List FileMetadata) (off : Nat) :
    (assignOffsets ms off).map FileMetadata.Filename = ms.map FileMetadata.Filename := by
  induction ms generalizing off with
  | nil => rfl
  | cons m ms ih => simp [assignOffsets, ih]

theorem assignOffsets_head (ms : List FileMetadata) (off : Nat) (a : FileMetadata)
    (h : (assignOffsets ms off)[0]? = some a) : a.Offset = off := by
  cases ms with
  | nil => simp [assignOffsets] at h
  | cons m ms =>
    simp only [assignOffsets, List.getElem?_cons_zero, Option.some.injEq] at h
    rw [← h]

theorem assignOffsets_succ (ms : List FileMetadata) (off : Nat)
    (hsum : off + (ms.map FileMetadata.Size).sum < 2 ^ 32) (i : Nat) (a b : FileMetadata)
    (ha : (assignOffsets ms off)[i]? = some a) (hb : (assignOffsets ms off)[i + 1]? = some b) :
    b.Offset = a.Offset + a.Size := by
  induction ms generalizing off i with
  | nil => simp [assignOffsets] at ha
  | cons m ms ih =>
    simp only [List.map_cons, List.sum_cons] at hsum
    simp only [assignOffsets, List.getElem?_cons_succ] at hb
    rw [Nat.mod_eq_of_lt (by omega)] at hb
    cases i with
    | zero =>
      simp only [assignOffsets, List.getElem?_cons_zero, Option.some.injEq] at ha
      rw [assignOffsets_head _ _ _ hb, ← ha]
    | succ i =>
      simp only [assignOffsets, List.getElem?_cons_succ] at ha
      rw [Nat.mod_eq_of_lt (by omega)] at ha
      exact ih (off + m.Size) (by omega) i ha hb

theorem RecalculateOffsets_of_ne_nil (p : Package) (hne : p.FileMetadata ≠ [])
    (h : 20 + (p.FileMetadata.map (fun m => 12 + m.FilenameLength)).sum < 2 ^ 32) :
    p.RecalculateOffsets =
      { p with
        StartOffset := 20 + (p.FileMetadata.map (fun m => 12 + m.FilenameLength)).sum
        FileMetadata := assignOffsets p.FileMetadata
          (20 + (p.FileMetadata.map (fun m => 12 + m.FilenameLength)).sum) } := by
  have hl : ¬ p.FileMetadata.length = 0 := by
    intro h0
    exact hne (List.length_eq_zero.mp h0)
  have hs := sumBlockSizes_eq p.FileMetadata 0 (by omega)
  have e : ((magicFieldBytes + startOffsetFieldBytes) % 2 ^ 32 + sumBlockSizes p.FileMetadata 0)
      % 2 ^ 32 = 20 + (p.FileMetadata.map (fun m => 12 + m.FilenameLength)).sum := by
    rw [hs]
    simp only [magicFieldBytes, startOffsetFieldBytes]
    omega
  simp only [Package.RecalculateOffsets, hl, if_false, e]

/-! ## The claims on the byte codec, the metadata block and the offsets -/

/-- C10. Little-endian round trip: for every `x` below `2 ^ 32`,
`uint32LEToBytes x` has four bytes and `bytesToUint32LE` reads `x` back from
them; for every sequence `b` of four bytes, `bytesToUint32LE b` returns a value
below `2 ^ 32` that `uint32LEToBytes` turns back into `b`. -/
theorem uint32LE_roundtrip (x : Nat) (b : List Byte) (hx : x < 2 ^ 32) (hb : b.length = 4) :
    ((uint32LEToBytes x).length = 4 ∧ bytesToUint32LE (uint32LEToBytes x) = some x) ∧
    (∃ v, bytesToUint32LE b = some v ∧ v < 2 ^ 32 ∧ uint32LEToBytes v = b) := by
  refine ⟨⟨rfl, ?_⟩, ?_⟩
  · have h := bytesToUint32LE_uint32LEToBytes x []
    rw [List.append_nil, Nat.mod_eq_of_lt hx] at h
    exact h
  · match b, hb with
    | [b0, b1, b2, b3], _ =>
      refine ⟨_, bytesToUint32LE_quad b0 b1 b2 b3 [], ?_, uint32LEToBytes_of_bytes b0 b1 b2 b3⟩
      have h0 := b0.isLt
      have h1 := b1.isLt
      have h2 := b2.isLt
      have h3 := b3.isLt
      omega

/-- C10 at `x = 0x12345678` and `b = [1, 2, 3, 4]`. -/
theorem uint32LE_roundtrip_witness :
    ((uint32LEToBytes 305419896).length = 4
      ∧ bytesToUint32LE (uint32LEToBytes 305419896) = some 305419896) ∧
    (∃ v, bytesToUint32LE [1, 2, 3, 4] = some v ∧ v < 2 ^ 32
      ∧ uint32LEToBytes v = [1, 2, 3, 4]) :=
  uint32LE_roundtrip 305419896 [1, 2, 3, 4] (by decide) (by decide)

/-- C9. Metadata block encoding: when `FilenameLength = len(Filename)` and
`FilenameLength + 12 < 2 ^ 32`, `ToBytes` returns (without panicking)
`LE32(Offset) ++ LE32(Size) ++ LE32(FilenameLength) ++ Filename`, whose length
is `BlockSize() = 12 + FilenameLength`. `ToBytes` is a function of the receiver
that returns only the bytes: the receiver is not changed. -/
theorem ToBytes_block (m : FileMetadata) (hlen : m.FilenameLength = m.Filename.length)
    (h : m.FilenameLength + 12 < 2 ^ 32) :
    m.ToBytes = some (uint32LEToBytes m.Offset ++ uint32LEToBytes m.Size
      ++ uint32LEToBytes m.FilenameLength ++ m.Filename) ∧
    (uint32LEToBytes m.Offset ++ uint32LEToBytes m.Size
      ++ uint32LEToBytes m.FilenameLength ++ m.Filename).length = m.BlockSize ∧
    m.BlockSize = 12 + m.FilenameLength := by
  refine ⟨ToBytes_eq m hlen h, ?_, BlockSize_eq m h⟩
  have hl := metadataBlock_length m
  rw [metadataBlock] at hl
  rw [hl, BlockSize_eq m h, hlen]

/-- C9 at the entry `Offset = 67, Size = 5, Filename = "abc"`. -/
theorem ToBytes_block_witness :
    (FileMetadata.mk 67 5 3 [97, 98, 99]).ToBytes
        = some (uint32LEToBytes 67 ++ uint32LEToBytes 5 ++ uint32LEToBytes 3 ++ [97, 98, 99]) ∧
    (uint32LEToBytes 67 ++ uint32LEToBytes 5 ++ uint32LEToBytes 3
      ++ ([97, 98, 99] : List Byte)).length = (FileMetadata.mk 67 5 3 [97, 98, 99]).BlockSize ∧
    (FileMetadata.mk 67 5 3 [97, 98, 99]).BlockSize = 12 + 3 :=
  ToBytes_block (FileMetadata.mk 67 5 3 [97, 98, 99]) (by decide) (by decide)

/-- C8. Encode layout: for every package, with `q` the package as
`RecalculateOffsets` leaves it, `Pack` returns `q`'s
`Magic ++ LE32(StartOffset) ++ ToBytes() of each entry, in order ++ Contents of
each file, in order` when every `ToBytes()` call returns, and panics when one
of them panics. -/
theorem Pack_layout (p : Package) :
    p.Pack = (p.RecalculateOffsets.FileMetadata.mapM FileMetadata.ToBytes).map (fun blocks =>
      (p.RecalculateOffsets,
        p.RecalculateOffsets.Magic ++ uint32LEToBytes p.RecalculateOffsets.StartOffset
          ++ blocks.flatten ++ (p.RecalculateOffsets.Files.map File.Contents).flatten)) :=
  Pack_eq p

/-- C6. Offset computation: for a package with at least one entry whose
encoded length `20 + Σ (12 + FilenameLength) + Σ Size` is below `2 ^ 32`,
`RecalculateOffsets` sets `StartOffset = 16 + 4 + Σ (12 + FilenameLength)`
(each `BlockSize()` being `12 + FilenameLength`), keeps the number of entries,
gives the first entry `Offset = StartOffset` and every later entry the
`Offset + Size` of the entry before it. The entries `("abc", 5 bytes)`,
`("defghij", 0 bytes)`, `("k", 12 bytes)` get `StartOffset` 67 and offsets
67, 72, 72. -/
theorem RecalculateOffsets_offsets (p : Package) (hne : p.FileMetadata ≠ [])
    (h : 20 + (p.FileMetadata.map (fun m => 12 + m.FilenameLength)).sum
      + (p.FileMetadata.map FileMetadata.Size).sum < 2 ^ 32) :
    (p.RecalculateOffsets.StartOffset
        = 16 + 4 + (p.FileMetadata.map (fun m => 12 + m.FilenameLength)).sum ∧
      (∀ m ∈ p.FileMetadata, m.BlockSize = 12 + m.FilenameLength) ∧
      p.RecalculateOffsets.FileMetadata.length = p.FileMetadata.length ∧
      (∃ m0, p.RecalculateOffsets.FileMetadata[0]? = some m0
        ∧ m0.Offset = p.RecalculateOffsets.StartOffset) ∧
      (∀ i a b, p.RecalculateOffsets.FileMetadata[i]? = some a →
        p.RecalculateOffsets.FileMetadata[i + 1]? = some b → b.Offset = a.Offset + a.Size)) ∧
    ((buildPackage [([97, 98, 99], [1, 2, 3, 4, 5]), ([100, 101, 102, 103, 104, 105, 106], []),
        ([107], [1, 2, 3, 4, 5, 6, 7, 8, 9, 10, 11, 12])]).RecalculateOffsets.StartOffset = 67 ∧
      (buildPackage [([97, 98, 99], [1, 2, 3, 4, 5]), ([100, 101, 102, 103, 104, 105, 106], []),
        ([107], [1, 2, 3, 4, 5, 6, 7, 8, 9, 10, 11, 12])]).RecalculateOffsets.FileMetadata.map
          FileMetadata.Offset = [67, 72, 72]) := by
  have hr := RecalculateOffsets_of_ne_nil p hne (by omega)
  refine ⟨⟨?_, ?_, ?_, ?_, ?_⟩, by decide, by decide⟩
  · rw [hr]
  · intro m hm
    have hle : 12 + m.FilenameLength
        ≤ (p.FileMetadata.map (fun m => 12 + m.FilenameLength)).sum :=
      List.single_le_sum (by intro y _; exact Nat.zero_le y) _
        (List.mem_map_of_mem (fun m => 12 + m.FilenameLength) hm)
    exact BlockSize_eq m (by omega)
  · rw [hr]; exact assignOffsets_length _ _
  · rw [hr]
    obtain ⟨m, ms, hp⟩ := List.exists_cons_of_ne_nil hne
    simp only [hp, assignOffsets, List.getElem?_cons_zero, Option.some.injEq, exists_eq_left']
  · intro i a b ha hb
    rw [hr] at ha hb
    exact assignOffsets_succ _ _ (by omega) i a b ha hb

/-- C6 at the package of the three entries `("abc", 5 bytes)`,
`("defghij", 0 bytes)`, `("k", 12 bytes)`. -/
theorem RecalculateOffsets_offsets_witness :
    (buildPackage [([97, 98, 99], [1, 2, 3, 4, 5]), ([100, 101, 102, 103, 104, 105, 106], []),
        ([107], [1, 2, 3, 4, 5, 6, 7, 8, 9, 10, 11, 12])]).FileMetadata ≠ [] ∧
    (buildPackage [([97, 98, 99], [1, 2, 3, 4, 5]), ([100, 101, 102, 103, 104, 105, 106], []),
        ([107], [1, 2, 3, 4, 5, 6, 7, 8, 9, 10, 11, 12])]).RecalculateOffsets.StartOffset
      = 16 + 4 + 47 :=
  ⟨by decide,
    by
      have h := (RecalculateOffsets_offsets (buildPackage [([97, 98, 99], [1, 2, 3, 4, 5]),
        ([100, 101, 102, 103, 104, 105, 106], []),
        ([107], [1, 2, 3, 4, 5, 6, 7, 8, 9, 10, 11, 12])]) (by decide) (by decide)).1.1
      exact h⟩

/-! ## Reading -/

theorem four_le_maxRW : 4 ≤ maxRW := by decide

theorem sixteen_le_maxRW : 16 ≤ maxRW := by decide

theorem Read_exact (xs rest buf : List Byte) (h : buf.length = xs.length)
    (hc : xs.length ≤ maxRW) :
    Read (xs ++ rest) buf = ⟨xs.length, none, xs, rest⟩ := by
  unfold Read
  by_cases h0 : buf.length = 0
  · have hx : xs = [] := List.length_eq_zero.mp (by omega)
    have hb : buf = [] := List.length_eq_zero.mp h0
    subst hx
    subst hb
    simp
  · have hf : ¬ (xs ++ rest).length = 0 := by
      rw [List.length_append]; omega
    have hmin : min (min buf.length maxRW) (xs ++ rest).length = xs.length := by
      rw [List.length_append]; omega
    simp only [h0, hf, if_false, hmin, List.take_left', List.drop_left']
    rw [← h, List.drop_length, List.append_nil]

theorem Read_make (xs rest : List Byte) (hc : xs.length ≤ maxRW) :
    Read (xs ++ rest) (make xs.length) = ⟨xs.length, none, xs, rest⟩ :=
  Read_exact xs rest _ (make_length _) hc

theorem FromPackageFile_block (m0 m : FileMetadata) (rest : List Byte)
    (hlen : m.FilenameLength = m.Filename.length)
    (ho : m.Offset < 2 ^ 32) (hs : m.Size < 2 ^ 32) (hf : m.FilenameLength < 2 ^ 32)
    (hc : m.FilenameLength ≤ maxRW) :
    FileMetadata.FromPackageFile m0 (metadataBlock m ++ rest) = (m, rest, Outcome.nil) := by
  have r1 : Read (metadataBlock m ++ rest) (make offsetFieldBytes)
      = ⟨4, none, uint32LEToBytes m.Offset, uint32LEToBytes m.Size
          ++ (uint32LEToBytes m.FilenameLength ++ (m.Filename ++ rest))⟩ := by
    have h := Read_exact (uint32LEToBytes m.Offset) (uint32LEToBytes m.Size
          ++ (uint32LEToBytes m.FilenameLength ++ (m.Filename ++ rest))) (make offsetFieldBytes) rfl
          four_le_maxRW
    simpa only [metadataBlock, List.append_assoc, uint32LEToBytes_length] using h
  have r2 : Read (uint32LEToBytes m.Size
          ++ (uint32LEToBytes m.FilenameLength ++ (m.Filename ++ rest))) (make sizeFieldBytes)
      = ⟨4, none, uint32LEToBytes m.Size,
          uint32LEToBytes m.FilenameLength ++ (m.Filename ++ rest)⟩ :=
    Read_exact (uint32LEToBytes m.Size) _ (make sizeFieldBytes) rfl four_le_maxRW
  have r3 : Read (uint32LEToBytes m.FilenameLength ++ (m.Filename ++ rest))
        (make filenameSizeFieldBytes)
      = ⟨4, none, uint32LEToBytes m.FilenameLength, m.Filename ++ rest⟩ :=
    Read_exact (uint32LEToBytes m.FilenameLength) _ (make filenameSizeFieldBytes) rfl
      four_le_maxRW
  have r4 : Read (m.Filename ++ rest) (make m.FilenameLength)
      = ⟨m.Filename.length, none, m.Filename, rest⟩ := by
    rw [hlen]; exact Read_make _ _ (by rw [← hlen]; exact hc)
  have d1 : bytesToUint32LE (uint32LEToBytes m.Offset) = some m.Offset := by
    have h := bytesToUint32LE_uint32LEToBytes m.Offset []
    rwa [List.append_nil, Nat.mod_eq_of_lt ho] at h
  have d2 : bytesToUint32LE (uint32LEToBytes m.Size) = some m.Size := by
    have h := bytesToUint32LE_uint32LEToBytes m.Size []
    rwa [List.append_nil, Nat.mod_eq_of_lt hs] at h
  have d3 : bytesToUint32LE (uint32LEToBytes m.FilenameLength) = some m.FilenameLength := by
    have h := bytesToUint32LE_uint32LEToBytes m.FilenameLength []
    rwa [List.append_nil, Nat.mod_eq_of_lt hf] at h
  simp only [FileMetadata.FromPackageFile, r1, d1, r2, d2, r3, d3, r4]

theorem readMetadataLoop_blocks (ms : List FileMetadata) (fuel : Nat) (p : Package)
    (rest : List Byte) (bytesRead : Nat)
    (hwf : ∀ m ∈ ms,
      m.FilenameLength = m.Filename.length ∧ m.Offset < 2 ^ 32 ∧ m.Size < 2 ^ 32)
    (hmax : ∀ m ∈ ms, m.FilenameLength ≤ maxRW)
    (hbr : bytesRead + (ms.map (fun m => 12 + m.FilenameLength)).sum = p.StartOffset)
    (hso : p.StartOffset < 2 ^ 32) (hfuel : ms.length ≤ fuel) :
    readMetadataLoop fuel p ((ms.map metadataBlock).flatten ++ rest) bytesRead
      = ({ p with FileMetadata := p.FileMetadata ++ ms }, rest, Outcome.nil) := by
  induction ms generalizing fuel p bytesRead with
  | nil =>
    simp only [List.map_nil, List.sum_nil, Nat.add_zero] at hbr
    have hlt : ¬ bytesRead < p.StartOffset := by omega
    cases fuel with
    | zero => simp [readMetadataLoop, hlt]
    | succ fuel => simp [readMetadataLoop, hlt]
  | cons m ms ih =>
    simp only [List.map_cons, List.sum_cons] at hbr
    obtain ⟨hl, ho, hs⟩ := hwf m (List.mem_cons_self _ _)
    cases fuel with
    | zero => simp at hfuel
    | succ fuel =>
      have hlt : bytesRead < p.StartOffset := by omega
      have hb : m.BlockSize = 12 + m.FilenameLength := BlockSize_eq m (by omega)
      have hfrom := FromPackageFile_block FileMetadata.zero m
        ((ms.map metadataBlock).flatten ++ rest) hl ho hs (by omega)
        (hmax m (List.mem_cons_self _ _))
      have hmod : (bytesRead + (12 + m.FilenameLength)) % 2 ^ 32
          = bytesRead + (12 + m.FilenameLength) := Nat.mod_eq_of_lt (by omega)
      simp only [List.map_cons, List.flatten_cons, List.append_assoc]
      rw [readMetadataLoop, if_pos hlt, hfrom]
      simp only []
      rw [hb, hmod, ih fuel { p with FileMetadata := p.FileMetadata ++ [m] }
        (bytesRead + (12 + m.FilenameLength))
        (fun x hx => hwf x (List.mem_cons_of_mem _ hx))
        (fun x hx => hmax x (List.mem_cons_of_mem _ hx)) (by simp only; omega) hso
        (by simpa using hfuel)]
      simp

theorem readFilesLoop_contents (ms : List FileMetadata) (fs : List File) (p : Package)
    (rest : List Byte)
    (h : ms.map FileMetadata.Size = fs.map (fun f => f.Contents.length))
    (hmax : ∀ m ∈ ms, m.Size ≤ maxRW) :
    readFilesLoop ms p ((fs.map File.Contents).flatten ++ rest)
      = ({ p with Files := p.Files ++ fs }, rest, Outcome.nil) := by
  induction ms generalizing fs p with
  | nil =>
    cases fs with
    | nil => simp [readFilesLoop]
    | cons f fs => simp at h
  | cons m ms ih =>
    cases fs with
    | nil => simp at h
    | cons f fs =>
      simp only [List.map_cons, List.cons.injEq] at h
      have hr : Read (f.Contents ++ ((fs.map File.Contents).flatten ++ rest)) (make m.Size)
          = ⟨f.Contents.length, none, f.Contents, (fs.map File.Contents).flatten ++ rest⟩ := by
        rw [h.1]; exact Read_make _ _ (by rw [← h.1]; exact hmax m (List.mem_cons_self _ _))
      simp only [List.map_cons, List.flatten_cons, List.append_assoc, readFilesLoop, hr]
      rw [ih fs _ h.2 (fun x hx => hmax x (List.mem_cons_of_mem _ hx))]
      simp

theorem mapM_ToBytes (ms : List FileMetadata)
    (hwf : ∀ m ∈ ms, m.FilenameLength = m.Filename.length ∧ m.FilenameLength + 12 < 2 ^ 32) :
    ms.mapM FileMetadata.ToBytes = some (ms.map metadataBlock) := by
  induction ms with
  | nil => rw [List.mapM_nil]; rfl
  | cons m ms ih =>
    obtain ⟨hl, hb⟩ := hwf m (List.mem_cons_self _ _)
    rw [List.mapM_cons, ToBytes_eq m hl hb, ih (fun x hx => hwf x (List.mem_cons_of_mem _ hx))]
    rfl

theorem assignOffsets_mem (ms : List FileMetadata) (off : Nat) (hoff : off < 2 ^ 32)
    (a : FileMetadata) (ha : a ∈ assignOffsets ms off) :
    a.Offset < 2 ^ 32 ∧ ∃ m ∈ ms, a.Size = m.Size ∧ a.FilenameLength = m.FilenameLength
      ∧ a.Filename = m.Filename := by
  induction ms generalizing off with
  | nil => simp [assignOffsets] at ha
  | cons m ms ih =>
    simp only [assignOffsets, List.mem_cons] at ha
    rcases ha with ha | ha
    · subst ha
      exact ⟨hoff, m, List.mem_cons_self _ _, rfl, rfl, rfl⟩
    · obtain ⟨h1, x, hx, h2⟩ := ih _ (Nat.mod_lt _ (by decide)) ha
      exact ⟨h1, x, List.mem_cons_of_mem _ hx, h2⟩

/-! ## Packages built by `AddFile` -/

theorem foldl_AddFile (es : List (List Byte × List Byte)) (p : Package) :
    es.foldl (fun p e => p.AddFile e.1 e.2) p =
      { p with
        FileMetadata := p.FileMetadata ++ es.map (fun e => NewFileMetadata e.1 e.2)
        Files := p.Files ++ es.map (fun e => NewFile e.2) } := by
  induction es generalizing p with
  | nil => simp
  | cons e es ih =>
    rw [List.foldl_cons, ih]
    simp [Package.AddFile]

theorem buildPackage_eq (es : List (List Byte × List Byte)) :
    buildPackage es =
      { NewPackage with
        FileMetadata := es.map (fun e => NewFileMetadata e.1 e.2)
        Files := es.map (fun e => NewFile e.2) } := by
  rw [buildPackage, foldl_AddFile]
  simp [NewPackage]

theorem map_NewFileMetadata (es : List (List Byte × List Byte))
    (h : (es.map (fun e => 12 + e.1.length)).sum + (es.map (fun e => e.2.length)).sum < 2 ^ 32) :
    es.map (fun e => NewFileMetadata e.1 e.2)
      = es.map (fun e => FileMetadata.mk 0 e.2.length e.1.length e.1) := by
  induction es with
  | nil => rfl
  | cons e es ih =>
    simp only [List.map_cons, List.sum_cons] at h ⊢
    rw [ih (by omega)]
    congr 1
    simp only [NewFileMetadata, FileMetadata.mk.injEq, and_true, true_and]
    exact ⟨Nat.mod_eq_of_lt (by omega), Nat.mod_eq_of_lt (by omega)⟩

theorem RecalculateOffsets_built (es : List (List Byte × List Byte)) (hne : es ≠ [])
    (h : encodedLength es < 2 ^ 32) :
    (buildPackage es).RecalculateOffsets =
      { Magic := NewPackage.Magic
        StartOffset := 20 + (es.map (fun e => 12 + e.1.length)).sum
        FileMetadata := assignOffsets
          (es.map (fun e => FileMetadata.mk 0 e.2.length e.1.length e.1))
          (20 + (es.map (fun e => 12 + e.1.length)).sum)
        Files := es.map (fun e => NewFile e.2) } := by
  unfold encodedLength at h
  have hm := map_NewFileMetadata es (by omega)
  have hb : buildPackage es =
      { Magic := NewPackage.Magic
        StartOffset := 0
        FileMetadata := es.map (fun e => FileMetadata.mk 0 e.2.length e.1.length e.1)
        Files := es.map (fun e => NewFile e.2) } := by
    rw [buildPackage_eq, hm]; rfl
  have hsum : ((es.map (fun e => FileMetadata.mk 0 e.2.length e.1.length e.1)).map
      (fun m => 12 + m.FilenameLength)).sum = (es.map (fun e => 12 + e.1.length)).sum := by
    rw [List.map_map]; rfl
  rw [hb, RecalculateOffsets_of_ne_nil _ (by simpa using hne) (by simp only [hsum]; omega)]
  simp only [hsum]

theorem built_wf (es : List (List Byte × List Byte)) (off : Nat) (hoff : off < 2 ^ 32)
    (h : encodedLength es < 2 ^ 32) :
    ∀ m ∈ assignOffsets (es.map (fun e => FileMetadata.mk 0 e.2.length e.1.length e.1)) off,
      m.FilenameLength = m.Filename.length ∧ m.Offset < 2 ^ 32 ∧ m.Size < 2 ^ 32
        ∧ m.FilenameLength + 12 < 2 ^ 32 := by
  intro a ha
  obtain ⟨h1, m, hm, h2, h3, h4⟩ := assignOffsets_mem _ off hoff a ha
  rw [List.mem_map] at hm
  obtain ⟨e, he, rfl⟩ := hm
  simp only at h2 h3 h4
  unfold encodedLength at h
  have hn : 12 + e.1.length ≤ (es.map (fun e => 12 + e.1.length)).sum :=
    List.single_le_sum (by intro x _; exact Nat.zero_le x) _ (List.mem_map_of_mem _ he)
  have hc : e.2.length ≤ (es.map (fun e => e.2.length)).sum :=
    List.single_le_sum (by intro x _; exact Nat.zero_le x) _ (List.mem_map_of_mem _ he)
  rw [h2, h3, h4]
  refine ⟨rfl, h1, ?_, ?_⟩ <;> omega

theorem RecalculateOffsets_Magic (p : Package) : p.RecalculateOffsets.Magic = p.Magic := by
  unfold Package.RecalculateOffsets
  split <;> rfl

theorem RecalculateOffsets_Files (p : Package) : p.RecalculateOffsets.Files = p.Files := by
  unfold Package.RecalculateOffsets
  split <;> rfl

theorem built_wf_all (es : List (List Byte × List Byte)) (h : encodedLength es < 2 ^ 32) :
    ∀ m ∈ (buildPackage es).RecalculateOffsets.FileMetadata,
      m.FilenameLength = m.Filename.length ∧ m.Offset < 2 ^ 32 ∧ m.Size < 2 ^ 32
        ∧ m.FilenameLength + 12 < 2 ^ 32 := by
  cases es with
  | nil => intro m hm; simp [buildPackage, NewPackage, Package.RecalculateOffsets] at hm
  | cons e es =>
    rw [RecalculateOffsets_built _ (List.cons_ne_nil _ _) h]
    exact built_wf _ _ (by unfold encodedLength at h; omega) h

theorem Pack_built (es : List (List Byte × List Byte)) (h : encodedLength es < 2 ^ 32) :
    (buildPackage es).Pack = some ((buildPackage es).RecalculateOffsets,
      NewPackage.Magic ++ uint32LEToBytes (buildPackage es).RecalculateOffsets.StartOffset
        ++ ((buildPackage es).RecalculateOffsets.FileMetadata.map metadataBlock).flatten
        ++ (es.map (fun e => e.2)).flatten) := by
  have hwf := built_wf_all es h
  rw [Pack_eq, mapM_ToBytes _ (fun m hm => ⟨(hwf m hm).1, (hwf m hm).2.2.2⟩)]
  have hM : (buildPackage es).Magic = NewPackage.Magic := by rw [buildPackage_eq]
  have hF : (buildPackage es).Files.map File.Contents = es.map (fun e => e.2) := by
    rw [buildPackage_eq]
    simp only [List.map_map]
    rfl
  simp only [Option.map_some', RecalculateOffsets_Magic, RecalculateOffsets_Files, hM, hF]

theorem length_le_flatten_blocks (ms : List FileMetadata) :
    ms.length ≤ ((ms.map metadataBlock).flatten).length := by
  induction ms with
  | nil => simp
  | cons m ms ih =>
    simp only [List.map_cons, List.flatten_cons, List.length_append, List.length_cons,
      metadataBlock_length]
    omega

theorem readMetadataLoop_exit (fuel : Nat) (p : Package) (file : List Byte) (bytesRead : Nat)
    (h : ¬ bytesRead < p.StartOffset) :
    readMetadataLoop fuel p file bytesRead = (p, file, Outcome.nil) := by
  cases fuel with
  | zero => rw [readMetadataLoop, if_neg h]
  | succ fuel => rw [readMetadataLoop, if_neg h]

theorem ReadFromPackageFile_encoded (p : Package) (mg : List Byte) (so : Nat)
    (ms : List FileMetadata) (fs : List File)
    (hpm : p.FileMetadata = []) (hpf : p.Files = []) (hlen : p.Magic.length = mg.length)
    (hmg : mg.take (mg.length - 1) = magicString)
    (hso : so < 2 ^ 32)
    (hcase : (ms = [] ∧ so ≤ 20) ∨ 20 + (ms.map (fun m => 12 + m.FilenameLength)).sum = so)
    (hwf : ∀ m ∈ ms,
      m.FilenameLength = m.Filename.length ∧ m.Offset < 2 ^ 32 ∧ m.Size < 2 ^ 32)
    (hsz : ms.map FileMetadata.Size = fs.map (fun f => f.Contents.length))
    (hmgle : mg.length ≤ maxRW)
    (hmax : ∀ m ∈ ms, m.FilenameLength ≤ maxRW ∧ m.Size ≤ maxRW) :
    p.ReadFromPackageFile (mg ++ uint32LEToBytes so
        ++ (ms.map metadataBlock).flatten ++ (fs.map File.Contents).flatten)
      = ({ Magic := mg, StartOffset := so, FileMetadata := ms, Files := fs }, [],
          Outcome.nil) := by
  have r1 : Read (mg ++ (uint32LEToBytes so
        ++ ((ms.map metadataBlock).flatten ++ (fs.map File.Contents).flatten))) p.Magic
      = ⟨mg.length, none, mg, uint32LEToBytes so
        ++ ((ms.map metadataBlock).flatten ++ (fs.map File.Contents).flatten)⟩ :=
    Read_exact mg _ p.Magic hlen hmgle
  have r2 : Read (uint32LEToBytes so
        ++ ((ms.map metadataBlock).flatten ++ (fs.map File.Contents).flatten))
        (make startOffsetFieldBytes)
      = ⟨4, none, uint32LEToBytes so,
          (ms.map metadataBlock).flatten ++ (fs.map File.Contents).flatten⟩ :=
    Read_exact (uint32LEToBytes so) _ (make startOffsetFieldBytes) rfl four_le_maxRW
  have d : bytesToUint32LE (uint32LEToBytes so) = some so := by
    have h := bytesToUint32LE_uint32LEToBytes so []
    rwa [List.append_nil, Nat.mod_eq_of_lt hso] at h
  have hmagic : ¬ (mg.take (mg.length - 1) ≠ magicString) := by
    rw [hmg]; exact fun h => h rfl
  have hloop : readMetadataLoop
      (((ms.map metadataBlock).flatten ++ (fs.map File.Contents).flatten).length + 1)
      { Magic := mg, StartOffset := so, FileMetadata := p.FileMetadata, Files := p.Files }
      ((ms.map metadataBlock).flatten ++ (fs.map File.Contents).flatten) 20
      = ({ Magic := mg, StartOffset := so, FileMetadata := ms, Files := [] },
          (fs.map File.Contents).flatten, Outcome.nil) := by
    rw [hpm, hpf]
    rcases hcase with ⟨hnil, hle⟩ | hsum
    · subst hnil
      rw [readMetadataLoop_exit _ _ _ _ (by simp only; omega)]
      simp
    · rw [readMetadataLoop_blocks ms _ _ _ 20 hwf (fun m hm => (hmax m hm).1) hsum hso (by
        have := length_le_flatten_blocks ms
        rw [List.length_append]; omega)]
      simp
  have hfiles := readFilesLoop_contents ms fs
    { Magic := mg, StartOffset := so, FileMetadata := ms, Files := [] } [] hsz
    (fun m hm => (hmax m hm).2)
  rw [List.append_nil] at hfiles
  have e20 : (magicFieldBytes + startOffsetFieldBytes) % 2 ^ 32 = 20 := by decide
  simp only [List.append_assoc]
  unfold Package.ReadFromPackageFile
  simp only [r1, hmagic, if_false, r2, d, e20, hloop, hfiles, List.nil_append]

theorem map_blockLength (ms : List FileMetadata) :
    ms.map (fun m => 12 + m.FilenameLength)
      = (ms.map FileMetadata.FilenameLength).map (fun n => 12 + n) := by
  rw [List.map_map]; rfl

theorem built_fields (es : List (List Byte × List Byte)) (h : encodedLength es < 2 ^ 32) :
    (buildPackage es).RecalculateOffsets.Magic = NewPackage.Magic ∧
    (buildPackage es).RecalculateOffsets.FileMetadata.map FileMetadata.Filename
      = es.map (fun e => e.1) ∧
    (buildPackage es).RecalculateOffsets.FileMetadata.map FileMetadata.FilenameLength
      = es.map (fun e => e.1.length) ∧
    (buildPackage es).RecalculateOffsets.FileMetadata.map FileMetadata.Size
      = es.map (fun e => e.2.length) ∧
    (buildPackage es).RecalculateOffsets.Files.map File.Contents = es.map (fun e => e.2) ∧
    ((es = [] ∧ (buildPackage es).RecalculateOffsets.StartOffset = 0) ∨
      (es ≠ [] ∧ (buildPackage es).RecalculateOffsets.StartOffset
        = 20 + (es.map (fun e => 12 + e.1.length)).sum)) := by
  cases es with
  | nil => simp [buildPackage, NewPackage, Package.RecalculateOffsets]
  | cons e es =>
    rw [RecalculateOffsets_built _ (List.cons_ne_nil _ _) h]
    refine ⟨rfl, ?_, ?_, ?_, ?_, Or.inr ⟨List.cons_ne_nil _ _, rfl⟩⟩
    · simp only [assignOffsets_Filename, List.map_map]; rfl
    · simp only [assignOffsets_FilenameLength, List.map_map]; rfl
    · simp only [assignOffsets_Size, List.map_map]; rfl
    · simp only [List.map_map]; rfl

theorem roundtrip_built (es : List (List Byte × List Byte)) (h : encodedLength es < 2 ^ 32)
    (hb : ∀ e ∈ es, e.1.length ≤ maxRW ∧ e.2.length ≤ maxRW) :
    NewPackage.ReadFromPackageFile
        (NewPackage.Magic ++ uint32LEToBytes (buildPackage es).RecalculateOffsets.StartOffset
          ++ ((buildPackage es).RecalculateOffsets.FileMetadata.map metadataBlock).flatten
          ++ (es.map (fun e => e.2)).flatten)
      = ((buildPackage es).RecalculateOffsets, [], Outcome.nil) := by
  obtain ⟨hM, _, hFL, hS, hC, hSO⟩ := built_fields es h
  have hwf := built_wf_all es h
  have hq : (buildPackage es).RecalculateOffsets =
      { Magic := NewPackage.Magic
        StartOffset := (buildPackage es).RecalculateOffsets.StartOffset
        FileMetadata := (buildPackage es).RecalculateOffsets.FileMetadata
        Files := (buildPackage es).RecalculateOffsets.Files } := by
    rw [← hM]
  have hsum : ((buildPackage es).RecalculateOffsets.FileMetadata.map
      (fun m => 12 + m.FilenameLength)).sum = (es.map (fun e => 12 + e.1.length)).sum := by
    rw [map_blockLength, hFL, List.map_map]; rfl
  have hlen : encodedLength es < 2 ^ 32 := h
  unfold encodedLength at hlen
  rw [← hC]
  conv => rhs; rw [hq]
  have hmax : ∀ m ∈ (buildPackage es).RecalculateOffsets.FileMetadata,
      m.FilenameLength ≤ maxRW ∧ m.Size ≤ maxRW := by
    intro m hm
    have h1 : m.FilenameLength ∈ es.map (fun e => e.1.length) := by
      rw [← hFL]; exact List.mem_map_of_mem _ hm
    have h2 : m.Size ∈ es.map (fun e => e.2.length) := by
      rw [← hS]; exact List.mem_map_of_mem _ hm
    obtain ⟨e1, he1, hq1⟩ := List.mem_map.mp h1
    obtain ⟨e2, he2, hq2⟩ := List.mem_map.mp h2
    rw [← hq1, ← hq2]
    exact ⟨(hb e1 he1).1, (hb e2 he2).2⟩
  refine ReadFromPackageFile_encoded NewPackage NewPackage.Magic _ _ _ rfl rfl rfl
    (by decide) ?_ ?_ (fun m hm => ⟨(hwf m hm).1, (hwf m hm).2.1, (hwf m hm).2.2.1⟩) ?_
    sixteen_le_maxRW hmax
  · rcases hSO with ⟨_, h0⟩ | ⟨_, h1⟩
    · rw [h0]; decide
    · rw [h1]; omega
  · rcases hSO with ⟨hnil, h0⟩ | ⟨_, h1⟩
    · left
      subst hnil
      exact ⟨rfl, by rw [h0]; decide⟩
    · right
      rw [hsum, h1]
  · have hl : (buildPackage es).RecalculateOffsets.Files.map (fun f => f.Contents.length)
        = ((buildPackage es).RecalculateOffsets.Files.map File.Contents).map List.length := by
      rw [List.map_map]; rfl
    rw [hS, hl, hC, List.map_map]; rfl

/-! ## Where the payload lies -/

theorem payload_at (ms : List FileMetadata) (fs : List File) (off : Nat) (pre : List Byte)
    (hpre : pre.length = off)
    (hsz : ms.map FileMetadata.Size = fs.map (fun f => f.Contents.length))
    (hsum : off + (ms.map FileMetadata.Size).sum < 2 ^ 32)
    (i : Nat) (a : FileMetadata) (f : File)
    (ha : (assignOffsets ms off)[i]? = some a) (hf : fs[i]? = some f) :
    ((pre ++ (fs.map File.Contents).flatten).drop a.Offset).take a.Size = f.Contents ∧
      a.Offset + a.Size ≤ (pre ++ (fs.map File.Contents).flatten).length := by
  induction ms generalizing fs off pre i with
  | nil => simp [assignOffsets] at ha
  | cons m ms ih =>
    cases fs with
    | nil => simp at hf
    | cons g gs =>
      simp only [List.map_cons, List.cons.injEq, List.sum_cons] at hsz hsum
      simp only [assignOffsets] at ha
      rw [Nat.mod_eq_of_lt (by omega)] at ha
      cases i with
      | zero =>
        simp only [List.getElem?_cons_zero, Option.some.injEq] at ha hf
        subst ha
        subst hf
        simp only [List.map_cons, List.flatten_cons]
        rw [List.drop_left' hpre, hsz.1, List.take_left' rfl]
        refine ⟨rfl, ?_⟩
        simp only [List.length_append, hpre]
        omega
      | succ i =>
        simp only [List.getElem?_cons_succ] at ha hf
        have h := ih gs (off + m.Size) (pre ++ g.Contents)
          (by rw [List.length_append, hpre, hsz.1]) hsz.2 (by omega) i ha hf
        simpa only [List.map_cons, List.flatten_cons, List.append_assoc] using h

theorem flatten_blocks_length (ms : List FileMetadata) :
    ((ms.map metadataBlock).flatten).length
      = (ms.map (fun m => 12 + m.Filename.length)).sum := by
  induction ms with
  | nil => rfl
  | cons m ms ih =>
    simp only [List.map_cons, List.flatten_cons, List.length_append, metadataBlock_length, ih,
      List.sum_cons]

theorem flatten_contents_length (es : List (List Byte × List Byte)) :
    ((es.map (fun e => e.2)).flatten).length = (es.map (fun e => e.2.length)).sum := by
  induction es with
  | nil => rfl
  | cons e es ih =>
    simp only [List.map_cons, List.flatten_cons, List.length_append, ih, List.sum_cons]

theorem built_payload (es : List (List Byte × List Byte)) (h : encodedLength es < 2 ^ 32)
    (i : Nat) (m : FileMetadata) (f : File)
    (hm : (buildPackage es).RecalculateOffsets.FileMetadata[i]? = some m)
    (hf : (buildPackage es).RecalculateOffsets.Files[i]? = some f) :
    ((NewPackage.Magic ++ uint32LEToBytes (buildPackage es).RecalculateOffsets.StartOffset
        ++ ((buildPackage es).RecalculateOffsets.FileMetadata.map metadataBlock).flatten
        ++ (es.map (fun e => e.2)).flatten).drop m.Offset).take m.Size = f.Contents ∧
      m.Offset + m.Size ≤
        (NewPackage.Magic ++ uint32LEToBytes (buildPackage es).RecalculateOffsets.StartOffset
          ++ ((buildPackage es).RecalculateOffsets.FileMetadata.map metadataBlock).flatten
          ++ (es.map (fun e => e.2)).flatten).length := by
  cases es with
  | nil => simp [buildPackage, NewPackage, Package.RecalculateOffsets] at hm
  | cons e es =>
    obtain ⟨_, hN, _, _, hC, _⟩ := built_fields (e :: es) h
    have hlen : encodedLength (e :: es) < 2 ^ 32 := h
    unfold encodedLength at hlen
    have hpre : (NewPackage.Magic
        ++ uint32LEToBytes (buildPackage (e :: es)).RecalculateOffsets.StartOffset
        ++ ((buildPackage (e :: es)).RecalculateOffsets.FileMetadata.map
          metadataBlock).flatten).length
        = 20 + ((e :: es).map (fun x => 12 + x.1.length)).sum := by
      have hb : (buildPackage (e :: es)).RecalculateOffsets.FileMetadata.map
          (fun m => 12 + m.Filename.length) = (e :: es).map (fun x => 12 + x.1.length) := by
        have h1 : (buildPackage (e :: es)).RecalculateOffsets.FileMetadata.map
            (fun m => 12 + m.Filename.length)
            = ((buildPackage (e :: es)).RecalculateOffsets.FileMetadata.map
                FileMetadata.Filename).map (fun n => 12 + n.length) := by
          rw [List.map_map]; rfl
        rw [h1, hN, List.map_map]; rfl
      rw [List.length_append, List.length_append, flatten_blocks_length, hb,
        uint32LEToBytes_length]
      rfl
    rw [← hC]
    rw [RecalculateOffsets_built _ (List.cons_ne_nil _ _) h] at hm hf hpre ⊢
    refine payload_at _ _ _ _ hpre ?_ ?_ i m f hm hf
    · simp only [List.map_map]; rfl
    · have hs : (((e :: es).map (fun x => FileMetadata.mk 0 x.2.length x.1.length x.1)).map
          FileMetadata.Size).sum = ((e :: es).map (fun x => x.2.length)).sum := by
        rw [List.map_map]; rfl
      rw [hs]; omega

/-- C7. Payload at its recorded offset: for entries whose encoded length is
below `2 ^ 32`, `Pack` on the package built from them returns bytes `b` and
leaves a package `q` with as many entries and files as were added, such that
for every index `i` the range from `Offset` to `Offset + Size` (of entry `i`)
lies within `b` and holds the `Contents` of file `i`; and when there is at
least one entry, the
first entry's `Offset` is `StartOffset` and
`len(b) = StartOffset + Σ Size`. -/
theorem Pack_payload_at_offset (es : List (List Byte × List Byte))
    (h : encodedLength es < 2 ^ 32) :
    ∃ q b, (buildPackage es).Pack = some (q, b) ∧
      q.FileMetadata.length = es.length ∧ q.Files.length = es.length ∧
      (∀ (i : Nat) (m : FileMetadata) (f : File), q.FileMetadata[i]? = some m →
        q.Files[i]? = some f →
        (b.drop m.Offset).take m.Size = f.Contents ∧ m.Offset + m.Size ≤ b.length) ∧
      (es ≠ [] →
        (∃ m0, q.FileMetadata[0]? = some m0 ∧ m0.Offset = q.StartOffset) ∧
        b.length = q.StartOffset + (q.FileMetadata.map FileMetadata.Size).sum) := by
  obtain ⟨_, hN, _, hS, hC, hSO⟩ := built_fields es h
  refine ⟨_, _, Pack_built es h, ?_, ?_, fun i m f hm hf => built_payload es h i m f hm hf, ?_⟩
  · have := congrArg List.length hN
    simpa using this
  · have := congrArg List.length hC
    simpa using this
  · intro hne
    rcases hSO with ⟨hnil, _⟩ | ⟨_, hso⟩
    · exact absurd hnil hne
    · constructor
      · rw [RecalculateOffsets_built es hne h]
        obtain ⟨e, es', rfl⟩ := List.exists_cons_of_ne_nil hne
        simp only [List.map_cons, assignOffsets, List.getElem?_cons_zero, Option.some.injEq,
          exists_eq_left']
      · have hb : (buildPackage es).RecalculateOffsets.FileMetadata.map
            (fun m => 12 + m.Filename.length) = es.map (fun x => 12 + x.1.length) := by
          have h1 : (buildPackage es).RecalculateOffsets.FileMetadata.map
              (fun m => 12 + m.Filename.length)
              = ((buildPackage es).RecalculateOffsets.FileMetadata.map
                  FileMetadata.Filename).map (fun n => 12 + n.length) := by
            rw [List.map_map]; rfl
          rw [h1, hN, List.map_map]; rfl
        rw [List.length_append, List.length_append, List.length_append, flatten_blocks_length,
          hb, uint32LEToBytes_length, flatten_contents_length, hS, hso]
        rfl

/-- C7 at the two entries `("a/b", [1, 2])` and `("c", [7])`: the second
payload byte range of the packed bytes. -/
theorem Pack_payload_at_offset_witness :
    encodedLength [([97, 47, 98], [1, 2]), ([99], [7])] < 2 ^ 32 ∧
    ∃ q b, (buildPackage [([97, 47, 98], [1, 2]), ([99], [7])]).Pack = some (q, b) ∧
      q.FileMetadata.length = 2 ∧ q.Files.length = 2 ∧
      b.length = q.StartOffset + (q.FileMetadata.map FileMetadata.Size).sum :=
  ⟨by decide,
    match Pack_payload_at_offset [([97, 47, 98], [1, 2]), ([99], [7])] (by decide) with
    | ⟨q, b, hp, h1, h2, _, h4⟩ => ⟨q, b, hp, h1, h2, (h4 (by decide)).2⟩⟩

/-! ## The metadata loop past `StartOffset` -/

theorem readMetadataLoop_upto (ms : List FileMetadata) (m : FileMetadata) (fuel : Nat)
    (p : Package) (rest : List Byte) (bytesRead : Nat)
    (hwf : ∀ x ∈ ms ++ [m],
      x.FilenameLength = x.Filename.length ∧ x.Offset < 2 ^ 32 ∧ x.Size < 2 ^ 32)
    (hmax : ∀ x ∈ ms ++ [m], x.FilenameLength ≤ maxRW)
    (hlow : bytesRead + (ms.map (fun x => 12 + x.FilenameLength)).sum < p.StartOffset)
    (hhigh : p.StartOffset
      ≤ bytesRead + (ms.map (fun x => 12 + x.FilenameLength)).sum + (12 + m.FilenameLength))
    (hno : bytesRead + (ms.map (fun x => 12 + x.FilenameLength)).sum + (12 + m.FilenameLength)
      < 2 ^ 32)
    (hfuel : ms.length + 1 ≤ fuel) :
    readMetadataLoop fuel p (((ms ++ [m]).map metadataBlock).flatten ++ rest) bytesRead
      = ({ p with FileMetadata := p.FileMetadata ++ (ms ++ [m]) }, rest, Outcome.nil) := by
  induction ms generalizing fuel p bytesRead with
  | nil =>
    simp only [List.map_nil, List.sum_nil, Nat.add_zero, List.length_nil, Nat.zero_add,
      List.nil_append] at hlow hhigh hno hfuel hwf hmax ⊢
    obtain ⟨hl, ho, hs⟩ := hwf m (List.mem_singleton.mpr rfl)
    cases fuel with
    | zero => omega
    | succ fuel =>
      have hb : m.BlockSize = 12 + m.FilenameLength := BlockSize_eq m (by omega)
      have hfrom := FromPackageFile_block FileMetadata.zero m rest hl ho hs (by omega)
        (hmax m (List.mem_singleton.mpr rfl))
      have hmod : (bytesRead + (12 + m.FilenameLength)) % 2 ^ 32
          = bytesRead + (12 + m.FilenameLength) := Nat.mod_eq_of_lt (by omega)
      simp only [List.map_cons, List.map_nil, List.flatten_cons, List.flatten_nil,
        List.append_nil]
      rw [readMetadataLoop, if_pos hlow, hfrom]
      simp only []
      rw [hb, hmod, readMetadataLoop_exit _ _ _ _ (by simp only; omega)]
  | cons x xs ih =>
    simp only [List.map_cons, List.sum_cons, List.length_cons] at hlow hhigh hno hfuel
    obtain ⟨hl, ho, hs⟩ := hwf x (by simp)
    cases fuel with
    | zero => omega
    | succ fuel =>
      have hlt : bytesRead < p.StartOffset := by omega
      have hb : x.BlockSize = 12 + x.FilenameLength := BlockSize_eq x (by omega)
      have hfrom := FromPackageFile_block FileMetadata.zero x
        (((xs ++ [m]).map metadataBlock).flatten ++ rest) hl ho hs (by omega)
        (hmax x (by simp))
      have hmod : (bytesRead + (12 + x.FilenameLength)) % 2 ^ 32
          = bytesRead + (12 + x.FilenameLength) := Nat.mod_eq_of_lt (by omega)
      simp only [List.cons_append, List.map_cons, List.flatten_cons, List.append_assoc]
      rw [readMetadataLoop, if_pos hlt, hfrom]
      simp only []
      rw [hb, hmod, ih fuel { p with FileMetadata := p.FileMetadata ++ [x] }
        (bytesRead + (12 + x.FilenameLength))
        (fun y hy => hwf y (by simp only [List.cons_append, List.mem_cons]; exact Or.inr hy))
        (fun y hy => hmax y (by simp only [List.cons_append, List.mem_cons]; exact Or.inr hy))
        (by simp only; omega) (by simp only; omega) (by omega) (by omega)]
      simp

theorem ReadFromPackageFile_header (p : Package) (mg : List Byte) (so : Nat) (body : List Byte)
    (hlen : p.Magic.length = mg.length) (hmg : mg.take (mg.length - 1) = magicString)
    (hso : so < 2 ^ 32) (hmgle : mg.length ≤ maxRW) :
    p.ReadFromPackageFile (mg ++ uint32LEToBytes so ++ body) =
      match readMetadataLoop (body.length + 1)
        { Magic := mg, StartOffset := so, FileMetadata := p.FileMetadata, Files := p.Files }
        body 20 with
      | (p1, file, Outcome.nil) => readFilesLoop p1.FileMetadata p1 file
      | res => res := by
  have r1 : Read (mg ++ (uint32LEToBytes so ++ body)) p.Magic
      = ⟨mg.length, none, mg, uint32LEToBytes so ++ body⟩ :=
    Read_exact mg _ p.Magic hlen hmgle
  have r2 : Read (uint32LEToBytes so ++ body) (make startOffsetFieldBytes)
      = ⟨4, none, uint32LEToBytes so, body⟩ :=
    Read_exact (uint32LEToBytes so) _ (make startOffsetFieldBytes) rfl four_le_maxRW
  have d : bytesToUint32LE (uint32LEToBytes so) = some so := by
    have h := bytesToUint32LE_uint32LEToBytes so []
    rwa [List.append_nil, Nat.mod_eq_of_lt hso] at h
  have hmagic : ¬ (mg.take (mg.length - 1) ≠ magicString) := by
    rw [hmg]; exact fun h => h rfl
  have e20 : (magicFieldBytes + startOffsetFieldBytes) % 2 ^ 32 = 20 := by decide
  simp only [List.append_assoc]
  unfold Package.ReadFromPackageFile
  simp only [r1, hmagic, if_false, r2, d, e20]

theorem ReadFromPackageFile_upto (mg : List Byte) (so : Nat) (ms : List FileMetadata)
    (m : FileMetadata) (fs : List File) (tail : List Byte)
    (hmglen : mg.length = 16) (hmg : mg.take 15 = magicString)
    (hwf : ∀ x ∈ ms ++ [m],
      x.FilenameLength = x.Filename.length ∧ x.Offset < 2 ^ 32 ∧ x.Size < 2 ^ 32)
    (hlow : 20 + (ms.map (fun x => 12 + x.FilenameLength)).sum < so)
    (hhigh : so ≤ 20 + (ms.map (fun x => 12 + x.FilenameLength)).sum + (12 + m.FilenameLength))
    (hno : 20 + (ms.map (fun x => 12 + x.FilenameLength)).sum + (12 + m.FilenameLength) < 2 ^ 32)
    (hsz : (ms ++ [m]).map FileMetadata.Size = fs.map (fun f => f.Contents.length))
    (hmax : ∀ x ∈ ms ++ [m], x.FilenameLength ≤ maxRW ∧ x.Size ≤ maxRW) :
    NewPackage.ReadFromPackageFile (mg ++ uint32LEToBytes so
        ++ (((ms ++ [m]).map metadataBlock).flatten ++ ((fs.map File.Contents).flatten ++ tail)))
      = ({ Magic := mg, StartOffset := so, FileMetadata := ms ++ [m], Files := fs }, tail,
          Outcome.nil) := by
  rw [ReadFromPackageFile_header NewPackage mg so _ (by rw [hmglen]; rfl)
    (by rw [hmglen]; exact hmg) (by omega) (by rw [hmglen]; exact sixteen_le_maxRW)]
  have hloop := readMetadataLoop_upto ms m
    ((((ms ++ [m]).map metadataBlock).flatten
      ++ ((fs.map File.Contents).flatten ++ tail)).length + 1)
    { Magic := mg, StartOffset := so, FileMetadata := NewPackage.FileMetadata,
      Files := NewPackage.Files }
    ((fs.map File.Contents).flatten ++ tail) 20 hwf (fun x hx => (hmax x hx).1) hlow hhigh
    hno (by
      have := length_le_flatten_blocks (ms ++ [m])
      rw [List.length_append] at this ⊢
      simp only [List.length_cons, List.length_nil] at this
      omega)
  rw [hloop]
  have hfiles := readFilesLoop_contents (ms ++ [m]) fs
    { Magic := mg, StartOffset := so, FileMetadata := ms ++ [m], Files := [] } tail hsz
    (fun x hx => (hmax x hx).2)
  simp only [NewPackage, List.nil_append] at hfiles ⊢
  rw [hfiles]

/-! ## The claims on rejected input -/

/-- C2. Header whose sixteenth byte is not NUL: on the 20 bytes
`"UnityWebData1.0"`, `0x01`, `00 00 00 00` the first 16 bytes are not the
null-terminated magic string, yet `ReadFromPackageFile` on a fresh `NewPackage`
returns `nil` (and keeps the byte `0x01` in `Magic`) instead of
`ErrInvalidMagicHeader`. -/
theorem ReadFromPackageFile_nonzero_terminator :
    ([85, 110, 105, 116, 121, 87, 101, 98, 68, 97, 116, 97, 49, 46, 48, 1] : List Byte)
      ≠ NewPackage.Magic ∧
    NewPackage.ReadFromPackageFile
        [85, 110, 105, 116, 121, 87, 101, 98, 68, 97, 116, 97, 49, 46, 48, 1, 0, 0, 0, 0]
      = ({ Magic := [85, 110, 105, 116, 121, 87, 101, 98, 68, 97, 116, 97, 49, 46, 48, 1],
           StartOffset := 0, FileMetadata := [], Files := [] }, [], Outcome.nil) := by
  decide

/-- C3. Payload cut short: on a well-formed archive of one entry (`"a"`,
`Offset = 33`, `Size = 100`) followed by only 50 payload bytes,
`ReadFromPackageFile` on a fresh `NewPackage` returns `nil`, with `Contents`
made of the 50 bytes read and 50 zero bytes, instead of an error. -/
theorem ReadFromPackageFile_truncated_payload :
    NewPackage.ReadFromPackageFile
        ([85, 110, 105, 116, 121, 87, 101, 98, 68, 97, 116, 97, 49, 46, 48, 0, 33, 0, 0, 0,
          33, 0, 0, 0, 100, 0, 0, 0, 1, 0, 0, 0, 97] ++ List.replicate 50 7)
      = ({ Magic := [85, 110, 105, 116, 121, 87, 101, 98, 68, 97, 116, 97, 49, 46, 48, 0],
           StartOffset := 33, FileMetadata := [⟨33, 100, 1, [97]⟩],
           Files := [⟨List.replicate 50 7 ++ List.replicate 50 0⟩] }, [], Outcome.nil) := by
  decide

/-- C4. Metadata cut short: on a stream of 14 bytes, `Offset = 0`, `Size = 0`,
`FilenameLength = 5` and only two bytes `"ab"` of name (fewer than
`12 + FilenameLength = 17`), `FromPackageFile` returns `nil` with the
`Filename` filled in part (`"ab"` and three zero bytes) instead of an error. -/
theorem FromPackageFile_truncated_name :
    ([0, 0, 0, 0, 0, 0, 0, 0, 5, 0, 0, 0, 97, 98] : List Byte).length < 12 + 5 ∧
    FileMetadata.FromPackageFile FileMetadata.zero
        [0, 0, 0, 0, 0, 0, 0, 0, 5, 0, 0, 0, 97, 98]
      = ({ Offset := 0, Size := 0, FilenameLength := 5, Filename := [97, 98, 0, 0, 0] }, [],
          Outcome.nil) := by
  decide

/-- C5, as stated, fails: on a valid magic, `StartOffset = 21` and one metadata
block of 12 bytes (`Size = 0`, empty name) the count of bytes read steps from
20, below `StartOffset`, to 32, above it, and `ReadFromPackageFile` returns
`nil`, not an error. -/
theorem ReadFromPackageFile_overshoot_counterexample :
    20 < 21 ∧ 21 < 20 + (FileMetadata.mk 0 0 0 []).BlockSize ∧
    NewPackage.ReadFromPackageFile
        [85, 110, 105, 116, 121, 87, 101, 98, 68, 97, 116, 97, 49, 46, 48, 0, 21, 0, 0, 0,
          0, 0, 0, 0, 0, 0, 0, 0, 0, 0, 0, 0]
      = ({ Magic := [85, 110, 105, 116, 121, 87, 101, 98, 68, 97, 116, 97, 49, 46, 48, 0],
           StartOffset := 21, FileMetadata := [⟨0, 0, 0, []⟩], Files := [⟨[]⟩] }, [],
          Outcome.nil) ∧
    ¬ ∃ e, (NewPackage.ReadFromPackageFile
        [85, 110, 105, 116, 121, 87, 101, 98, 68, 97, 116, 97, 49, 46, 48, 0, 21, 0, 0, 0,
          0, 0, 0, 0, 0, 0, 0, 0, 0, 0, 0, 0]).2.2 = Outcome.err e := by
  refine ⟨by decide, by decide, by decide, ?_⟩
  rintro ⟨e, he⟩
  revert he
  cases e <;> decide

/-- C5, amended. Overshoot is not rejected: on an input made of a valid
16-byte magic `mg`, a start offset `so`, the blocks of the entries `ms ++ [m]`
(each with `FilenameLength = len(Filename)` and 32-bit fields), the payloads
`fs` of those entries (`Size` bytes each) and any `tail`, where every name and
payload has at most `2 ^ 30` bytes (what one `Read` call transfers) and the
count of bytes read is below `so` after the blocks of `ms` and above `so` (and
below `2 ^ 32`) after the block of `m`, `ReadFromPackageFile` on a fresh
`NewPackage` stops reading metadata after `m` and returns `nil` with exactly
those entries and files, leaving `tail` unread. -/
theorem ReadFromPackageFile_overshoot_accepted (mg : List Byte) (so : Nat)
    (ms : List FileMetadata) (m : FileMetadata) (fs : List File) (tail : List Byte)
    (hmglen : mg.length = 16) (hmg : mg.take 15 = magicString)
    (hwf : ∀ x ∈ ms ++ [m],
      x.FilenameLength = x.Filename.length ∧ x.Offset < 2 ^ 32 ∧ x.Size < 2 ^ 32)
    (hlow : 20 + (ms.map (fun x => x.BlockSize)).sum < so)
    (hhigh : so < 20 + (ms.map (fun x => x.BlockSize)).sum + m.BlockSize)
    (hno : 20 + (ms.map (fun x => 12 + x.FilenameLength)).sum + (12 + m.FilenameLength) < 2 ^ 32)
    (hsz : (ms ++ [m]).map FileMetadata.Size = fs.map (fun f => f.Contents.length))
    (hmax : ∀ x ∈ ms ++ [m], x.FilenameLength ≤ 2 ^ 30 ∧ x.Size ≤ 2 ^ 30) :
    NewPackage.ReadFromPackageFile (mg ++ uint32LEToBytes so
        ++ (((ms ++ [m]).map metadataBlock).flatten ++ ((fs.map File.Contents).flatten ++ tail)))
      = ({ Magic := mg, StartOffset := so, FileMetadata := ms ++ [m], Files := fs }, tail,
          Outcome.nil) := by
  have hbs : ∀ x ∈ ms, x.BlockSize = 12 + x.FilenameLength := by
    intro x hx
    have hle : 12 + x.FilenameLength ≤ (ms.map (fun x => 12 + x.FilenameLength)).sum :=
      List.single_le_sum (by intro y _; exact Nat.zero_le y) _
        (List.mem_map_of_mem (fun x => 12 + x.FilenameLength) hx)
    exact BlockSize_eq x (by omega)
  have hsum : ms.map (fun x => x.BlockSize) = ms.map (fun x => 12 + x.FilenameLength) :=
    List.map_congr_left hbs
  have hm : m.BlockSize = 12 + m.FilenameLength := BlockSize_eq m (by omega)
  rw [hsum] at hlow hhigh
  rw [hm] at hhigh
  exact ReadFromPackageFile_upto mg so ms m fs tail hmglen hmg hwf hlow (by omega) hno hsz
    hmax

/-- C5, amended, at the input of the counterexample: magic, `StartOffset = 21`,
one block of 12 zero bytes. -/
theorem ReadFromPackageFile_overshoot_accepted_witness :
    NewPackage.ReadFromPackageFile (NewPackage.Magic ++ uint32LEToBytes 21
        ++ ((([] ++ [FileMetadata.mk 0 0 0 []]).map metadataBlock).flatten
          ++ ((([File.mk []] : List File).map File.Contents).flatten ++ [])))
      = ({ Magic := NewPackage.Magic, StartOffset := 21,
           FileMetadata := [] ++ [FileMetadata.mk 0 0 0 []], Files := [File.mk []] }, [],
          Outcome.nil) :=
  ReadFromPackageFile_overshoot_accepted NewPackage.Magic 21 [] (FileMetadata.mk 0 0 0 [])
    [File.mk []] [] (by decide) (by decide) (by decide) (by decide) (by decide) (by decide)
    (by decide) (by decide)

/-! ## Recomputing offsets twice -/

theorem sumBlockSizes_congr (ms ms' : List FileMetadata) (acc : Nat)
    (h : ms.map FileMetadata.FilenameLength = ms'.map FileMetadata.FilenameLength) :
    sumBlockSizes ms acc = sumBlockSizes ms' acc := by
  induction ms generalizing ms' acc with
  | nil =>
    cases ms' with
    | nil => rfl
    | cons m' ms' => simp at h
  | cons m ms ih =>
    cases ms' with
    | nil => simp at h
    | cons m' ms' =>
      simp only [List.map_cons, List.cons.injEq] at h
      have hb : m.BlockSize = m'.BlockSize := by
        simp only [FileMetadata.BlockSize, h.1]
      rw [sumBlockSizes, sumBlockSizes, hb, ih ms' _ h.2]

theorem assignOffsets_congr (ms ms' : List FileMetadata) (off : Nat)
    (hs : ms.map FileMetadata.Size = ms'.map FileMetadata.Size)
    (hl : ms.map FileMetadata.FilenameLength = ms'.map FileMetadata.FilenameLength)
    (hn : ms.map FileMetadata.Filename = ms'.map FileMetadata.Filename) :
    assignOffsets ms off = assignOffsets ms' off := by
  induction ms generalizing ms' off with
  | nil =>
    cases ms' with
    | nil => rfl
    | cons m' ms' => simp at hs
  | cons m ms ih =>
    cases ms' with
    | nil => simp at hs
    | cons m' ms' =>
      simp only [List.map_cons, List.cons.injEq] at hs hl hn
      rw [assignOffsets, assignOffsets, hs.1, ih ms' _ hs.2 hl.2 hn.2]
      congr 1
      simp only [FileMetadata.mk.injEq, true_and]
      exact ⟨hl.1, hn.1⟩

theorem RecalculateOffsets_fields (p : Package) :
    p.RecalculateOffsets.FileMetadata.map FileMetadata.Size = p.FileMetadata.map FileMetadata.Size
    ∧ p.RecalculateOffsets.FileMetadata.map FileMetadata.FilenameLength
        = p.FileMetadata.map FileMetadata.FilenameLength
    ∧ p.RecalculateOffsets.FileMetadata.map FileMetadata.Filename
        = p.FileMetadata.map FileMetadata.Filename := by
  unfold Package.RecalculateOffsets
  split
  · exact ⟨rfl, rfl, rfl⟩
  · exact ⟨assignOffsets_Size _ _, assignOffsets_FilenameLength _ _, assignOffsets_Filename _ _⟩

theorem RecalculateOffsets_congr (p q : Package) (hM : p.Magic = q.Magic)
    (hF : p.Files = q.Files) (hne : p.FileMetadata ≠ [])
    (hs : p.FileMetadata.map FileMetadata.Size = q.FileMetadata.map FileMetadata.Size)
    (hl : p.FileMetadata.map FileMetadata.FilenameLength
      = q.FileMetadata.map FileMetadata.FilenameLength)
    (hn : p.FileMetadata.map FileMetadata.Filename = q.FileMetadata.map FileMetadata.Filename) :
    p.RecalculateOffsets = q.RecalculateOffsets := by
  have hlen : p.FileMetadata.length = q.FileMetadata.length := by
    have := congrArg List.length hs
    simpa using this
  have hp : ¬ p.FileMetadata.length = 0 := fun h0 => hne (List.length_eq_zero.mp h0)
  have hq : ¬ q.FileMetadata.length = 0 := by rw [← hlen]; exact hp
  simp only [Package.RecalculateOffsets, hp, hq, if_false, hM, hF,
    sumBlockSizes_congr _ _ 0 hl, assignOffsets_congr _ _ _ hs hl hn]

theorem RecalculateOffsets_idem (p : Package) :
    p.RecalculateOffsets.RecalculateOffsets = p.RecalculateOffsets := by
  by_cases h0 : p.FileMetadata.length = 0
  · have hp : p.RecalculateOffsets = p := by
      simp only [Package.RecalculateOffsets, h0, if_true]
    rw [hp, hp]
  · obtain ⟨hs, hl, hn⟩ := RecalculateOffsets_fields p
    have hne : p.RecalculateOffsets.FileMetadata ≠ [] := by
      intro he
      have := congrArg List.length hs
      rw [he] at this
      simp at this
      exact h0 (by rw [this])
    have h1 := RecalculateOffsets_congr p.RecalculateOffsets p (RecalculateOffsets_Magic p)
      (RecalculateOffsets_Files p) hne hs hl hn
    exact h1

/-- C11. Idempotent recomputation: for every package, `RecalculateOffsets`
applied twice gives the same package (same `StartOffset`, same `Offset` of
every entry) as applied once; and `RecalculateOffsets` changes no `Size`,
`FilenameLength` or `Filename`, nor `Magic`, nor `Files`. -/
theorem RecalculateOffsets_idempotent (p : Package) :
    p.RecalculateOffsets.RecalculateOffsets = p.RecalculateOffsets ∧
    p.RecalculateOffsets.FileMetadata.map FileMetadata.Size
      = p.FileMetadata.map FileMetadata.Size ∧
    p.RecalculateOffsets.FileMetadata.map FileMetadata.FilenameLength
      = p.FileMetadata.map FileMetadata.FilenameLength ∧
    p.RecalculateOffsets.FileMetadata.map FileMetadata.Filename
      = p.FileMetadata.map FileMetadata.Filename ∧
    p.RecalculateOffsets.Magic = p.Magic ∧
    p.RecalculateOffsets.Files = p.Files :=
  ⟨RecalculateOffsets_idem p, (RecalculateOffsets_fields p).1, (RecalculateOffsets_fields p).2.1,
    (RecalculateOffsets_fields p).2.2, RecalculateOffsets_Magic p, RecalculateOffsets_Files p⟩

/-! ## The empty archive and appending -/

theorem Pack_RecalculateOffsets (p : Package) : p.RecalculateOffsets.Pack = p.Pack := by
  rw [Pack_eq, Pack_eq, RecalculateOffsets_idem]

/-- C12. Empty archive: `Pack` on the package returned by `NewPackage` leaves it
unchanged and returns exactly 20 bytes, the 16 magic bytes `"UnityWebData1.0\0"`
followed by four zero bytes; `ReadFromPackageFile` on those 20 bytes into a
fresh `NewPackage` returns `nil`, with no entry, no file and `StartOffset = 0`. -/
theorem Pack_empty :
    NewPackage.Pack = some (NewPackage,
      [85, 110, 105, 116, 121, 87, 101, 98, 68, 97, 116, 97, 49, 46, 48, 0, 0, 0, 0, 0]) ∧
    ([85, 110, 105, 116, 121, 87, 101, 98, 68, 97, 116, 97, 49, 46, 48, 0, 0, 0, 0, 0]
      : List Byte).length = 20 ∧
    ([85, 110, 105, 116, 121, 87, 101, 98, 68, 97, 116, 97, 49, 46, 48, 0, 0, 0, 0, 0]
      : List Byte) = magicString ++ [0] ++ [0, 0, 0, 0] ∧
    NewPackage.ReadFromPackageFile
        [85, 110, 105, 116, 121, 87, 101, 98, 68, 97, 116, 97, 49, 46, 48, 0, 0, 0, 0, 0]
      = ({ Magic := [85, 110, 105, 116, 121, 87, 101, 98, 68, 97, 116, 97, 49, 46, 48, 0],
           StartOffset := 0, FileMetadata := [], Files := [] }, [], Outcome.nil) := by
  decide

/-- C13. Append: for a name and contents shorter than `2 ^ 32`,
`AddFile(name, contents)` leaves `FileMetadata` and `Files` equal to the old
lists followed by one new element each: metadata with `Offset = 0`,
`Size = len(contents)`, `FilenameLength = len(name)` and `Filename` the bytes
of `name`, and a file with `Contents = contents`. `Magic` and `StartOffset`
are unchanged. -/
theorem AddFile_appends (p : Package) (name contents : List Byte)
    (hn : name.length < 2 ^ 32) (hc : contents.length < 2 ^ 32) :
    (p.AddFile name contents).FileMetadata
      = p.FileMetadata ++ [{ Offset := 0, Size := contents.length,
                             FilenameLength := name.length, Filename := name }] ∧
    (p.AddFile name contents).Files = p.Files ++ [{ Contents := contents }] ∧
    (p.AddFile name contents).Magic = p.Magic ∧
    (p.AddFile name contents).StartOffset = p.StartOffset := by
  refine ⟨?_, rfl, rfl, rfl⟩
  simp only [Package.AddFile, NewFileMetadata, Nat.mod_eq_of_lt hn, Nat.mod_eq_of_lt hc]

/-- C13 at a package that already holds the entry `("a", [1])`, adding
`("b/c", [2, 3])`. -/
theorem AddFile_appends_witness :
    ((NewPackage.AddFile [97] [1]).AddFile [98, 47, 99] [2, 3]).FileMetadata
      = (NewPackage.AddFile [97] [1]).FileMetadata
        ++ [{ Offset := 0, Size := 2, FilenameLength := 3, Filename := [98, 47, 99] }] ∧
    ((NewPackage.AddFile [97] [1]).AddFile [98, 47, 99] [2, 3]).Files
      = (NewPackage.AddFile [97] [1]).Files ++ [{ Contents := [2, 3] }] :=
  ⟨(AddFile_appends (NewPackage.AddFile [97] [1]) [98, 47, 99] [2, 3]
      (by decide) (by decide)).1,
    (AddFile_appends (NewPackage.AddFile [97] [1]) [98, 47, 99] [2, 3]
      (by decide) (by decide)).2.1⟩

/-! ## When `ToBytes` returns -/

theorem copyAt_eq_some (bytes : List Byte) (low : Nat) (src : List Byte)
    (h : low ≤ bytes.length) :
    ∃ r, copyAt bytes low src = some r ∧ r.length = bytes.length := by
  refine ⟨_, if_pos h, ?_⟩
  rw [List.length_append, copy_length, List.length_take, List.length_drop]
  omega

theorem copyAt_eq_none (bytes : List Byte) (low : Nat) (src : List Byte)
    (h : bytes.length < low) : copyAt bytes low src = none :=
  if_neg (by omega)

theorem ToBytes_of_le (m : FileMetadata) (h : 12 ≤ m.BlockSize) :
    ∃ bs, m.ToBytes = some bs ∧ bs.length = m.BlockSize := by
  have l0 : (copy (make m.BlockSize) (uint32LEToBytes m.Offset)).length = m.BlockSize := by
    rw [copy_length, make_length]
  obtain ⟨r1, e1, l1⟩ := copyAt_eq_some (copy (make m.BlockSize) (uint32LEToBytes m.Offset)) 4
    (uint32LEToBytes m.Size) (by omega)
  obtain ⟨r2, e2, l2⟩ := copyAt_eq_some r1 8 (uint32LEToBytes m.FilenameLength) (by omega)
  obtain ⟨r3, e3, l3⟩ := copyAt_eq_some r2 12 m.Filename (by omega)
  refine ⟨r3, ?_, by omega⟩
  simp only [FileMetadata.ToBytes, offsetFieldBytes, sizeFieldBytes, filenameSizeFieldBytes,
    e1, e2, e3]

theorem ToBytes_of_lt (m : FileMetadata) (h : m.BlockSize < 12) : m.ToBytes = none := by
  have l0 : (copy (make m.BlockSize) (uint32LEToBytes m.Offset)).length = m.BlockSize := by
    rw [copy_length, make_length]
  by_cases h4 : m.BlockSize < 4
  · have e1 := copyAt_eq_none (copy (make m.BlockSize) (uint32LEToBytes m.Offset)) 4
      (uint32LEToBytes m.Size) (by omega)
    simp only [FileMetadata.ToBytes, offsetFieldBytes, e1]
  · obtain ⟨r1, e1, l1⟩ := copyAt_eq_some (copy (make m.BlockSize) (uint32LEToBytes m.Offset)) 4
      (uint32LEToBytes m.Size) (by omega)
    by_cases h8 : m.BlockSize < 8
    · have e2 := copyAt_eq_none r1 8 (uint32LEToBytes m.FilenameLength) (by omega)
      simp only [FileMetadata.ToBytes, offsetFieldBytes, sizeFieldBytes, e1, e2]
    · obtain ⟨r2, e2, l2⟩ := copyAt_eq_some r1 8 (uint32LEToBytes m.FilenameLength) (by omega)
      have e3 := copyAt_eq_none r2 12 m.Filename (by omega)
      simp only [FileMetadata.ToBytes, offsetFieldBytes, sizeFieldBytes,
        filenameSizeFieldBytes, e1, e2, e3]

/-- C20, as stated, fails: for `FilenameLength = 2 ^ 32 - 12` the sum
`FilenameLength + 12` wraps, `BlockSize()` is 0, the buffer is empty and the
slice expression `bytes[4:]` is out of range, so `ToBytes` panics. -/
theorem ToBytes_panics_counterexample :
    (FileMetadata.mk 0 0 4294967284 []).FilenameLength < 2 ^ 32 ∧
    (FileMetadata.mk 0 0 4294967284 []).BlockSize = 0 ∧
    (FileMetadata.mk 0 0 4294967284 []).ToBytes = none := by
  decide

/-- C20, amended. For every `FileMetadata` with a 32-bit `FilenameLength` (any
`Offset`, `Size` and `Filename`, also with `FilenameLength` different from
`len(Filename)`): when `FilenameLength + 12` does not wrap, `ToBytes` returns
without panicking and returns exactly `BlockSize()` bytes; when it wraps,
`BlockSize()` is below 12 and `ToBytes` panics on a slice expression. -/
theorem ToBytes_returns_iff (m : FileMetadata) (hfl : m.FilenameLength < 2 ^ 32) :
    (m.FilenameLength + 12 < 2 ^ 32 → ∃ bs, m.ToBytes = some bs ∧ bs.length = m.BlockSize) ∧
    (2 ^ 32 ≤ m.FilenameLength + 12 → m.BlockSize < 12 ∧ m.ToBytes = none) := by
  constructor
  · intro h
    exact ToBytes_of_le m (by rw [BlockSize_eq m h]; omega)
  · intro h
    have hb : m.BlockSize < 12 := by
      simp only [FileMetadata.BlockSize, offsetFieldBytes, sizeFieldBytes,
        filenameSizeFieldBytes]
      omega
    exact ⟨hb, ToBytes_of_lt m hb⟩

/-- C20, amended, at an entry whose `FilenameLength = 3` differs from the length
of its `Filename` `"ab"`, and at the entry of the counterexample. -/
theorem ToBytes_returns_iff_witness :
    (∃ bs, (FileMetadata.mk 67 5 3 [97, 98]).ToBytes = some bs
      ∧ bs.length = (FileMetadata.mk 67 5 3 [97, 98]).BlockSize) ∧
    ((FileMetadata.mk 0 0 4294967284 []).BlockSize < 12
      ∧ (FileMetadata.mk 0 0 4294967284 []).ToBytes = none) :=
  ⟨(ToBytes_returns_iff (FileMetadata.mk 67 5 3 [97, 98]) (by decide)).1 (by decide),
    (ToBytes_returns_iff (FileMetadata.mk 0 0 4294967284 []) (by decide)).2 (by decide)⟩

/-! ## What `Pack` depends on -/

theorem RecalculateOffsets_of_nil (p : Package) (h : p.FileMetadata = []) :
    p.RecalculateOffsets = p := by
  simp only [Package.RecalculateOffsets, h, List.length_nil, if_true]

theorem Pack_of_nil (p : Package) (h : p.FileMetadata = []) :
    p.Pack = some (p, p.Magic ++ uint32LEToBytes p.StartOffset
      ++ (p.Files.map File.Contents).flatten) := by
  rw [Pack_eq, RecalculateOffsets_of_nil p h, h, List.mapM_nil]
  simp

theorem wf_of_map_eq (l l' : List FileMetadata)
    (hl : l.map FileMetadata.FilenameLength = l'.map FileMetadata.FilenameLength)
    (hn : l.map FileMetadata.Filename = l'.map FileMetadata.Filename)
    (h : ∀ m ∈ l', m.FilenameLength = m.Filename.length ∧ m.FilenameLength + 12 < 2 ^ 32) :
    ∀ m ∈ l, m.FilenameLength = m.Filename.length ∧ m.FilenameLength + 12 < 2 ^ 32 := by
  induction l generalizing l' with
  | nil => intro m hm; simp at hm
  | cons a l ih =>
    cases l' with
    | nil => simp at hl
    | cons a' l' =>
      simp only [List.map_cons, List.cons.injEq] at hl hn
      intro m hm
      rcases List.mem_cons.mp hm with rfl | hm
      · have := h a' (List.mem_cons_self _ _)
        rw [hl.1, hn.1]
        exact this
      · exact ih l' hl.2 hn.2 (fun x hx => h x (List.mem_cons_of_mem _ hx)) m hm

theorem Pack_returns (p : Package)
    (h : ∀ m ∈ p.FileMetadata,
      m.FilenameLength = m.Filename.length ∧ m.FilenameLength + 12 < 2 ^ 32) :
    ∃ b, p.Pack = some (p.RecalculateOffsets, b) := by
  obtain ⟨_, hl, hn⟩ := RecalculateOffsets_fields p
  rw [Pack_eq, mapM_ToBytes _ (wf_of_map_eq _ _ hl hn h)]
  exact ⟨_, rfl⟩

/-- C15, as stated, fails for an empty entry sequence: the package returned by
`NewPackage` and the package left by reading the 20 bytes magic, `07 00 00 00`
both have the correct `Magic` and no entry, but `Pack` returns the bytes
ending in `00 00 00 00` for the first and in `07 00 00 00` for the second.
(`Package.mk` takes `Magic`, `StartOffset`, `FileMetadata`, `Files`.) -/
theorem Pack_empty_stale_counterexample :
    NewPackage.ReadFromPackageFile
        [85, 110, 105, 116, 121, 87, 101, 98, 68, 97, 116, 97, 49, 46, 48, 0, 7, 0, 0, 0]
      = (Package.mk NewPackage.Magic 7 [] [], [], Outcome.nil) ∧
    (NewPackage.Pack).map Prod.snd
      = some [85, 110, 105, 116, 121, 87, 101, 98, 68, 97, 116, 97, 49, 46, 48, 0, 0, 0, 0, 0] ∧
    (Package.Pack (Package.mk NewPackage.Magic 7 [] [])).map Prod.snd
      = some [85, 110, 105, 116, 121, 87, 101, 98, 68, 97, 116, 97, 49, 46, 48, 0, 7, 0, 0, 0] ∧
    (NewPackage.Pack).map Prod.snd
      ≠ (Package.Pack (Package.mk NewPackage.Magic 7 [] [])).map Prod.snd := by
  decide

/-- C15, amended. For two packages with the same `Magic`, the same files and
entries with the same `Size`, `FilenameLength` and `Filename` in the same
order, whatever their `StartOffset` and `Offset` fields hold: when there is at
least one entry, `Pack` gives the same result on both (the same bytes, and the
same package left behind), and it returns when every
`FilenameLength = len(Filename)` and `FilenameLength + 12 < 2 ^ 32`; when there
is no entry, `Pack` returns `Magic ++ LE32(StartOffset) ++ Contents` with the
`StartOffset` each package held before the call. -/
theorem Pack_depends_on_entries (p q : Package) (hM : p.Magic = q.Magic)
    (hF : p.Files = q.Files)
    (hs : p.FileMetadata.map FileMetadata.Size = q.FileMetadata.map FileMetadata.Size)
    (hl : p.FileMetadata.map FileMetadata.FilenameLength
      = q.FileMetadata.map FileMetadata.FilenameLength)
    (hn : p.FileMetadata.map FileMetadata.Filename = q.FileMetadata.map FileMetadata.Filename) :
    (p.FileMetadata ≠ [] → p.Pack = q.Pack) ∧
    ((∀ m ∈ p.FileMetadata,
        m.FilenameLength = m.Filename.length ∧ m.FilenameLength + 12 < 2 ^ 32) →
      ∃ r b, p.Pack = some (r, b)) ∧
    (p.FileMetadata = [] →
      p.Pack = some (p, p.Magic ++ uint32LEToBytes p.StartOffset
        ++ (p.Files.map File.Contents).flatten) ∧
      q.Pack = some (q, q.Magic ++ uint32LEToBytes q.StartOffset
        ++ (q.Files.map File.Contents).flatten)) := by
  refine ⟨?_, ?_, ?_⟩
  · intro hne
    rw [Pack_eq, Pack_eq, RecalculateOffsets_congr p q hM hF hne hs hl hn]
  · intro h
    obtain ⟨b, hb⟩ := Pack_returns p h
    exact ⟨_, b, hb⟩
  · intro hnil
    have hq : q.FileMetadata = [] := by
      have := congrArg List.length hs
      rw [hnil] at this
      simp at this
      exact List.length_eq_zero.mp this.symm
    exact ⟨Pack_of_nil p hnil, Pack_of_nil q hq⟩

/-- C15, amended, at two packages holding the entry `("a", [9])` with
different stale offsets. -/
theorem Pack_depends_on_entries_witness :
    Package.Pack (Package.mk NewPackage.Magic 0 [⟨0, 1, 1, [97]⟩] [⟨[9]⟩])
      = Package.Pack (Package.mk NewPackage.Magic 77 [⟨500, 1, 1, [97]⟩] [⟨[9]⟩]) :=
  (Pack_depends_on_entries (Package.mk NewPackage.Magic 0 [⟨0, 1, 1, [97]⟩] [⟨[9]⟩])
    (Package.mk NewPackage.Magic 77 [⟨500, 1, 1, [97]⟩] [⟨[9]⟩]) rfl rfl rfl rfl rfl).1
    (by decide)

/-! ## The number of files and of entries -/

/-- C14. Entry counts after a failed read: on the 32 bytes magic,
`StartOffset = 100` and one metadata block of 12 zero bytes,
`ReadFromPackageFile` on a fresh `NewPackage` returns `io.EOF` when it looks for
a second block, and leaves one element in `FileMetadata` and none in `Files`. -/
theorem ReadFromPackageFile_counts_differ :
    NewPackage.Files.length = NewPackage.FileMetadata.length ∧
    NewPackage.ReadFromPackageFile
        [85, 110, 105, 116, 121, 87, 101, 98, 68, 97, 116, 97, 49, 46, 48, 0, 100, 0, 0, 0,
          0, 0, 0, 0, 0, 0, 0, 0, 0, 0, 0, 0]
      = ({ Magic := NewPackage.Magic, StartOffset := 100, FileMetadata := [⟨0, 0, 0, []⟩],
           Files := [] }, [], Outcome.err Err.EOF) ∧
    (NewPackage.ReadFromPackageFile
        [85, 110, 105, 116, 121, 87, 101, 98, 68, 97, 116, 97, 49, 46, 48, 0, 100, 0, 0, 0,
          0, 0, 0, 0, 0, 0, 0, 0, 0, 0, 0, 0]).1.Files.length
      ≠ (NewPackage.ReadFromPackageFile
        [85, 110, 105, 116, 121, 87, 101, 98, 68, 97, 116, 97, 49, 46, 48, 0, 100, 0, 0, 0,
          0, 0, 0, 0, 0, 0, 0, 0, 0, 0, 0, 0]).1.FileMetadata.length := by
  decide

/-! ## Reads on arbitrary input -/

theorem le32At_drop (f : List Byte) (k j : Nat) : le32At (f.drop k) j = le32At f (k + j) := by
  simp only [le32At, List.getD_eq_getElem?_getD, List.getElem?_drop, Nat.add_assoc]

theorem le32At_lt (f : List Byte) (pos : Nat) : le32At f pos < 2 ^ 32 := by
  have h0 := (f.getD pos 0).isLt
  have h1 := (f.getD (pos + 1) 0).isLt
  have h2 := (f.getD (pos + 2) 0).isLt
  have h3 := (f.getD (pos + 3) 0).isLt
  simp only [le32At]
  omega

theorem Read_word (f : List Byte) :
    (f = [] ∧ Read f (make 4) = ⟨0, some Err.EOF, make 4, []⟩) ∨
    (f ≠ [] ∧ ∃ buf, Read f (make 4) = ⟨min 4 f.length, none, buf, f.drop 4⟩
      ∧ bytesToUint32LE buf = some (le32At f 0)) := by
  match f with
  | [] => exact Or.inl ⟨rfl, rfl⟩
  | [a] =>
    refine Or.inr ⟨by simp, [a, 0, 0, 0], rfl, ?_⟩
    rw [bytesToUint32LE_quad]; rfl
  | [a, b] =>
    refine Or.inr ⟨by simp, [a, b, 0, 0], rfl, ?_⟩
    rw [bytesToUint32LE_quad]; rfl
  | [a, b, c] =>
    refine Or.inr ⟨by simp, [a, b, c, 0], rfl, ?_⟩
    rw [bytesToUint32LE_quad]; rfl
  | a :: b :: c :: d :: rest =>
    refine Or.inr ⟨by simp, [a, b, c, d], ?_, ?_⟩
    · have h4 : min 4 maxRW = 4 := by decide
      simp [Read, make, h4, four_le_maxRW]
    · rw [bytesToUint32LE_quad]; rfl

theorem drop_min_length (f : List Byte) (k : Nat) : f.drop (min k f.length) = f.drop k := by
  rcases Nat.le_total k f.length with h | h
  · rw [Nat.min_eq_left h]
  · rw [Nat.min_eq_right h, List.drop_length, List.drop_eq_nil_of_le h]

theorem Read_cases (f b : List Byte) :
    ((Read f b).err = some Err.EOF ∧ f = [] ∧ b ≠ []) ∨
    ((Read f b).err = none ∧ (Read f b).file = f.drop (min b.length maxRW)
      ∧ (Read f b).buf.length = b.length ∧ (b ≠ [] → f ≠ [])) := by
  unfold Read
  by_cases hb : b.length = 0
  · have hb' : b = [] := List.length_eq_zero.mp hb
    subst hb'
    right
    simp
  · by_cases hf : f.length = 0
    · left
      have hf' : f = [] := List.length_eq_zero.mp hf
      subst hf'
      simp only [hb, if_false, List.length_nil, if_true, true_and]
      intro h
      rw [h] at hb
      exact hb rfl
    · right
      simp only [hb, hf, if_false, true_and, List.length_append, List.length_take,
        List.length_drop]
      exact ⟨drop_min_length f _, by omega, fun _ h => hf (by rw [h]; rfl)⟩

theorem FromPackageFile_cases (m : FileMetadata) (f : List Byte) :
    (m.FromPackageFile f).2.2 = Outcome.err Err.EOF ∨
    ((m.FromPackageFile f).2.2 = Outcome.nil ∧ f ≠ [] ∧
      (m.FromPackageFile f).1.Offset = le32At f 0 ∧
      (m.FromPackageFile f).1.Size = le32At f 4 ∧
      (m.FromPackageFile f).1.FilenameLength = le32At f 8 ∧
      (m.FromPackageFile f).1.Filename.length = (m.FromPackageFile f).1.FilenameLength ∧
      (m.FromPackageFile f).2.1
        = f.drop (12 + min (m.FromPackageFile f).1.FilenameLength maxRW)) := by
  have e8 : (f.drop 4).drop 4 = f.drop 8 := by rw [List.drop_drop]
  have e12 : (f.drop 8).drop 4 = f.drop 12 := by rw [List.drop_drop]
  have w4 : le32At (f.drop 4) 0 = le32At f 4 := le32At_drop f 4 0
  have w8 : le32At (f.drop 8) 0 = le32At f 8 := le32At_drop f 8 0
  unfold FileMetadata.FromPackageFile
  simp only [offsetFieldBytes, sizeFieldBytes, filenameSizeFieldBytes]
  rcases Read_word f with ⟨_, h1⟩ | ⟨hf, b1, h1, d1⟩
  · left
    simp only [h1]
  · rcases Read_word (f.drop 4) with ⟨_, h2⟩ | ⟨_, b2, h2, d2⟩
    · left
      simp only [h1, d1, h2]
    · rw [e8] at h2
      rw [w4] at d2
      rcases Read_word (f.drop 8) with ⟨_, h3⟩ | ⟨_, b3, h3, d3⟩
      · left
        simp only [h1, d1, h2, d2, h3]
      · rw [e12] at h3
        rw [w8] at d3
        rcases Read_cases (f.drop 12) (make (le32At f 8))
          with ⟨he, _⟩ | ⟨he, hfile, hlen, _⟩
        · left
          simp only [h1, d1, h2, d2, h3, d3, he]
        · right
          rw [make_length] at hfile hlen
          rw [List.drop_drop] at hfile
          simp only [h1, d1, h2, d2, h3, d3, he, hfile, hlen, true_and, and_true]
          exact hf

/-! ## The metadata loop on arbitrary input -/

theorem readMetadataLoop_succ (fuel : Nat) (p : Package) (f : List Byte) (bytesRead : Nat) :
    readMetadataLoop (fuel + 1) p f bytesRead =
      if bytesRead < p.StartOffset then
        if (FileMetadata.zero.FromPackageFile f).2.2 = Outcome.nil then
          readMetadataLoop fuel
            { p with FileMetadata := p.FileMetadata ++ [(FileMetadata.zero.FromPackageFile f).1] }
            (FileMetadata.zero.FromPackageFile f).2.1
            ((bytesRead + (FileMetadata.zero.FromPackageFile f).1.BlockSize) % 2 ^ 32)
        else (p, (FileMetadata.zero.FromPackageFile f).2.1,
          (FileMetadata.zero.FromPackageFile f).2.2)
      else (p, f, Outcome.nil) := by
  rw [readMetadataLoop]
  by_cases hlt : bytesRead < p.StartOffset
  · rw [if_pos hlt, if_pos hlt]
    rcases h : FileMetadata.zero.FromPackageFile f with ⟨m, f1, o⟩
    cases o <;> simp
  · rw [if_neg hlt, if_neg hlt]

theorem FromPackageFile_progress (m : FileMetadata) (f : List Byte)
    (h : (m.FromPackageFile f).2.2 = Outcome.nil) :
    (m.FromPackageFile f).2.1.length < f.length := by
  rcases FromPackageFile_cases m f with he | ⟨_, hf, _, _, _, _, hd⟩
  · rw [h] at he
    exact absurd he (by decide)
  · rw [hd, List.length_drop]
    have : 0 < f.length := List.length_pos.mpr hf
    omega

theorem readMetadataLoop_stable (fuel fuel' : Nat) (p : Package) (f : List Byte)
    (bytesRead : Nat) (h : f.length < fuel) (h' : f.length < fuel') :
    readMetadataLoop fuel p f bytesRead = readMetadataLoop fuel' p f bytesRead := by
  induction fuel generalizing fuel' p f bytesRead with
  | zero => omega
  | succ fuel ih =>
    cases fuel' with
    | zero => omega
    | succ fuel' =>
      rw [readMetadataLoop_succ, readMetadataLoop_succ]
      by_cases hlt : bytesRead < p.StartOffset
      · rw [if_pos hlt, if_pos hlt]
        by_cases hn : (FileMetadata.zero.FromPackageFile f).2.2 = Outcome.nil
        · rw [if_pos hn, if_pos hn]
          have hp := FromPackageFile_progress _ f hn
          exact ih fuel' _ _ _ (by omega) (by omega)
        · rw [if_neg hn, if_neg hn]
      · rw [if_neg hlt, if_neg hlt]

theorem readMetadataLoop_outcome (fuel : Nat) (p : Package) (f : List Byte) (bytesRead : Nat)
    (h : f.length < fuel) :
    (readMetadataLoop fuel p f bytesRead).2.2 = Outcome.nil ∨
      (readMetadataLoop fuel p f bytesRead).2.2 = Outcome.err Err.EOF := by
  induction fuel generalizing p f bytesRead with
  | zero => omega
  | succ fuel ih =>
    rw [readMetadataLoop_succ]
    by_cases hlt : bytesRead < p.StartOffset
    · rw [if_pos hlt]
      by_cases hn : (FileMetadata.zero.FromPackageFile f).2.2 = Outcome.nil
      · rw [if_pos hn]
        have hp := FromPackageFile_progress _ f hn
        exact ih _ _ _ (by omega)
      · rw [if_neg hn]
        rcases FromPackageFile_cases FileMetadata.zero f with he | ⟨hnil, _⟩
        · exact Or.inr he
        · exact absurd hnil hn
    · rw [if_neg hlt]
      exact Or.inl rfl

theorem readMetadataLoop_frame (fuel : Nat) (p : Package) (f : List Byte) (bytesRead : Nat) :
    (readMetadataLoop fuel p f bytesRead).1.Magic = p.Magic ∧
    (readMetadataLoop fuel p f bytesRead).1.StartOffset = p.StartOffset ∧
    (readMetadataLoop fuel p f bytesRead).1.Files = p.Files ∧
    ∃ new, (readMetadataLoop fuel p f bytesRead).1.FileMetadata = p.FileMetadata ++ new := by
  induction fuel generalizing p f bytesRead with
  | zero =>
    rw [readMetadataLoop]
    split <;> exact ⟨rfl, rfl, rfl, [], by simp⟩
  | succ fuel ih =>
    rw [readMetadataLoop_succ]
    by_cases hlt : bytesRead < p.StartOffset
    · rw [if_pos hlt]
      by_cases hn : (FileMetadata.zero.FromPackageFile f).2.2 = Outcome.nil
      · rw [if_pos hn]
        obtain ⟨h1, h2, h3, new, h4⟩ := ih
          { p with FileMetadata := p.FileMetadata ++ [(FileMetadata.zero.FromPackageFile f).1] }
          (FileMetadata.zero.FromPackageFile f).2.1
          ((bytesRead + (FileMetadata.zero.FromPackageFile f).1.BlockSize) % 2 ^ 32)
        refine ⟨h1, h2, h3, (FileMetadata.zero.FromPackageFile f).1 :: new, ?_⟩
        rw [h4]
        simp
      · rw [if_neg hn]
        exact ⟨rfl, rfl, rfl, [], by simp⟩
    · rw [if_neg hlt]
      exact ⟨rfl, rfl, rfl, [], by simp⟩

/-! ## The payload loop and the whole decoder on arbitrary input -/

theorem readFilesLoop_frame (ms : List FileMetadata) (p : Package) (f : List Byte) :
    (readFilesLoop ms p f).1.Magic = p.Magic ∧
    (readFilesLoop ms p f).1.StartOffset = p.StartOffset ∧
    (readFilesLoop ms p f).1.FileMetadata = p.FileMetadata ∧
    ((readFilesLoop ms p f).2.2 = Outcome.nil ∨
      (readFilesLoop ms p f).2.2 = Outcome.err Err.EOF) := by
  induction ms generalizing p f with
  | nil => exact ⟨rfl, rfl, rfl, Or.inl rfl⟩
  | cons m ms ih =>
    rw [readFilesLoop]
    rcases Read_cases f (make m.Size) with ⟨he, _⟩ | ⟨he, _⟩
    · simp only [he]
      simp
    · simp only [he]
      exact ih _ _

theorem ReadFromPackageFile_eq (p : Package) (file : List Byte) :
    p.ReadFromPackageFile file =
      if (Read file p.Magic).err = some Err.EOF then
        ({ p with Magic := (Read file p.Magic).buf }, (Read file p.Magic).file,
          Outcome.err Err.EOF)
      else if (Read file p.Magic).buf.take ((Read file p.Magic).buf.length - 1) ≠ magicString then
        ({ p with Magic := (Read file p.Magic).buf }, (Read file p.Magic).file,
          Outcome.err Err.ErrInvalidMagicHeader)
      else if (Read file p.Magic).file = [] then
        ({ p with Magic := (Read file p.Magic).buf }, [], Outcome.err Err.EOF)
      else if (readMetadataLoop (((Read file p.Magic).file.drop 4).length + 1)
          { p with Magic := (Read file p.Magic).buf,
                   StartOffset := le32At (Read file p.Magic).file 0 }
          ((Read file p.Magic).file.drop 4) 20).2.2 = Outcome.nil then
        readFilesLoop
          (readMetadataLoop (((Read file p.Magic).file.drop 4).length + 1)
            { p with Magic := (Read file p.Magic).buf,
                     StartOffset := le32At (Read file p.Magic).file 0 }
            ((Read file p.Magic).file.drop 4) 20).1.FileMetadata
          (readMetadataLoop (((Read file p.Magic).file.drop 4).length + 1)
            { p with Magic := (Read file p.Magic).buf,
                     StartOffset := le32At (Read file p.Magic).file 0 }
            ((Read file p.Magic).file.drop 4) 20).1
          (readMetadataLoop (((Read file p.Magic).file.drop 4).length + 1)
            { p with Magic := (Read file p.Magic).buf,
                     StartOffset := le32At (Read file p.Magic).file 0 }
            ((Read file p.Magic).file.drop 4) 20).2.1
      else
        readMetadataLoop (((Read file p.Magic).file.drop 4).length + 1)
          { p with Magic := (Read file p.Magic).buf,
                   StartOffset := le32At (Read file p.Magic).file 0 }
          ((Read file p.Magic).file.drop 4) 20 := by
  have e20 : (magicFieldBytes + startOffsetFieldBytes) % 2 ^ 32 = 20 := by decide
  unfold Package.ReadFromPackageFile
  simp only [e20]
  simp only [startOffsetFieldBytes]
  rcases Read_cases file p.Magic with ⟨he, _⟩ | ⟨he, _⟩
  · simp only [he, if_true]
  · simp only [he, reduceCtorEq, if_false]
    by_cases hm : (Read file p.Magic).buf.take ((Read file p.Magic).buf.length - 1)
        ≠ magicString
    · rw [if_pos hm, if_pos hm]
    · rw [if_neg hm, if_neg hm]
      rcases Read_word (Read file p.Magic).file with ⟨hnil, h2⟩ | ⟨hnn, b2, h2, d2⟩
      · rw [if_pos hnil]
        simp only [h2]
      · rw [if_neg hnn]
        simp only [h2, d2]
        rcases hL : readMetadataLoop (((Read file p.Magic).file.drop 4).length + 1)
          { Magic := (Read file p.Magic).buf, StartOffset := le32At (Read file p.Magic).file 0,
            FileMetadata := p.FileMetadata, Files := p.Files }
          ((Read file p.Magic).file.drop 4) 20 with ⟨q, f', o⟩
        cases o <;> simp only [reduceCtorEq, if_true, if_false]

theorem ReadFromPackageFile_outcome (p : Package) (file : List Byte) :
    (p.ReadFromPackageFile file).2.2 = Outcome.nil ∨
    (p.ReadFromPackageFile file).2.2 = Outcome.err Err.EOF ∨
    ((p.ReadFromPackageFile file).2.2 = Outcome.err Err.ErrInvalidMagicHeader ∧
      (Read file p.Magic).err = none ∧
      (Read file p.Magic).buf.take ((Read file p.Magic).buf.length - 1) ≠ magicString) := by
  rw [ReadFromPackageFile_eq]
  by_cases h1 : (Read file p.Magic).err = some Err.EOF
  · rw [if_pos h1]
    exact Or.inr (Or.inl rfl)
  · rw [if_neg h1]
    by_cases h2 : (Read file p.Magic).buf.take ((Read file p.Magic).buf.length - 1)
        ≠ magicString
    · rw [if_pos h2]
      refine Or.inr (Or.inr ⟨rfl, ?_, h2⟩)
      rcases Read_cases file p.Magic with ⟨he, _⟩ | ⟨he, _⟩
      · exact absurd he h1
      · exact he
    · rw [if_neg h2]
      by_cases h3 : (Read file p.Magic).file = []
      · rw [if_pos h3]
        exact Or.inr (Or.inl rfl)
      · rw [if_neg h3]
        split
        · rcases (readFilesLoop_frame _ _ _).2.2.2 with h | h
          · exact Or.inl h
          · exact Or.inr (Or.inl h)
        · rcases readMetadataLoop_outcome (((Read file p.Magic).file.drop 4).length + 1)
            { p with Magic := (Read file p.Magic).buf,
                     StartOffset := le32At (Read file p.Magic).file 0 }
            ((Read file p.Magic).file.drop 4) 20 (Nat.lt_succ_self _) with h | h
          · exact Or.inl h
          · exact Or.inr (Or.inl h)

theorem ReadFromPackageFile_Magic (p : Package) (file : List Byte) :
    (p.ReadFromPackageFile file).1.Magic = (Read file p.Magic).buf := by
  rw [ReadFromPackageFile_eq]
  split
  · rfl
  · split
    · rfl
    · split
      · rfl
      · split
        · rw [(readFilesLoop_frame _ _ _).1, (readMetadataLoop_frame _ _ _ _).1]
        · rw [(readMetadataLoop_frame _ _ _ _).1]

/-- C17. Decode terminates on every finite input: for every package and every
finite byte sequence, `ReadFromPackageFile` ends by returning `nil` or an error
(it neither panics nor runs on). Every call of `FromPackageFile` that returns
`nil` leaves strictly fewer unread bytes, whatever `BlockSize` and the 32-bit
`bytesRead` do, so the loop `for bytesRead < p.StartOffset` on `f` ends within
`len(f) + 1` iterations: a larger budget `len(f) + 1 + k` gives the same result,
and the budget is never used up. -/
theorem ReadFromPackageFile_terminates (p : Package) (file : List Byte) (m : FileMetadata)
    (f : List Byte) (k bytesRead : Nat) :
    ((p.ReadFromPackageFile file).2.2 = Outcome.nil ∨
      ∃ e, (p.ReadFromPackageFile file).2.2 = Outcome.err e) ∧
    ((m.FromPackageFile f).2.2 ≠ Outcome.nil ∨ (m.FromPackageFile f).2.1.length < f.length) ∧
    readMetadataLoop (f.length + 1 + k) p f bytesRead
      = readMetadataLoop (f.length + 1) p f bytesRead ∧
    (readMetadataLoop (f.length + 1) p f bytesRead).2.2 ≠ Outcome.diverge := by
  refine ⟨?_, ?_, ?_, ?_⟩
  · rcases ReadFromPackageFile_outcome p file with h | h | ⟨h, _⟩
    · exact Or.inl h
    · exact Or.inr ⟨_, h⟩
    · exact Or.inr ⟨_, h⟩
  · by_cases hn : (m.FromPackageFile f).2.2 = Outcome.nil
    · exact Or.inr (FromPackageFile_progress m f hn)
    · exact Or.inl hn
  · exact readMetadataLoop_stable _ _ p f bytesRead (by omega) (by omega)
  · rcases readMetadataLoop_outcome (f.length + 1) p f bytesRead (Nat.lt_succ_self _) with h | h
    · rw [h]; decide
    · rw [h]; decide

/-- C18. Exact condition of the magic check: for a package whose `Magic` has 16
bytes and an input of at least 16 bytes, `ReadFromPackageFile` returns
`ErrInvalidMagicHeader` if and only if the first 15 input bytes differ from
`"UnityWebData1.0"` (so the sixteenth byte has no part in it), and in every
case the first 16 input bytes, the sixteenth included, are left in `Magic`. -/
theorem ReadFromPackageFile_magic_check (p : Package) (file : List Byte)
    (hp : p.Magic.length = 16) (hlen : 16 ≤ file.length) :
    ((p.ReadFromPackageFile file).2.2 = Outcome.err Err.ErrInvalidMagicHeader
      ↔ file.take 15 ≠ magicString) ∧
    (p.ReadFromPackageFile file).1.Magic = file.take 16 := by
  have hr : Read file p.Magic = ⟨16, none, file.take 16, file.drop 16⟩ := by
    have h := Read_exact (file.take 16) (file.drop 16) p.Magic
      (by rw [hp, List.length_take]; omega)
      (by rw [List.length_take, Nat.min_eq_left hlen]; exact sixteen_le_maxRW)
    rw [List.take_append_drop, List.length_take, Nat.min_eq_left hlen] at h
    exact h
  have ht : (file.take 16).take ((file.take 16).length - 1) = file.take 15 := by
    rw [List.length_take, Nat.min_eq_left hlen, List.take_take]
    rfl
  refine ⟨⟨?_, ?_⟩, ?_⟩
  · intro h
    rcases ReadFromPackageFile_outcome p file with h1 | h1 | ⟨_, _, h3⟩
    · rw [h1] at h; exact absurd h (by decide)
    · rw [h1] at h; exact absurd h (by decide)
    · rw [hr] at h3
      simp only [ht] at h3
      exact h3
  · intro h
    rw [ReadFromPackageFile_eq, hr]
    simp only [ht, reduceCtorEq, if_false, h, ne_eq, not_false_eq_true, if_true]
  · rw [ReadFromPackageFile_Magic, hr]

/-- C18 at the input `"UnityWebData1.0"`, `0x01`, `00 00 00 00`, whose
sixteenth byte is not NUL: accepted, and `0x01` is kept in `Magic`. -/
theorem ReadFromPackageFile_magic_check_witness :
    ((NewPackage.ReadFromPackageFile
        [85, 110, 105, 116, 121, 87, 101, 98, 68, 97, 116, 97, 49, 46, 48, 1, 0, 0, 0, 0]).2.2
        = Outcome.err Err.ErrInvalidMagicHeader
      ↔ ([85, 110, 105, 116, 121, 87, 101, 98, 68, 97, 116, 97, 49, 46, 48, 1, 0, 0, 0, 0]
          : List Byte).take 15 ≠ magicString) ∧
    (NewPackage.ReadFromPackageFile
        [85, 110, 105, 116, 121, 87, 101, 98, 68, 97, 116, 97, 49, 46, 48, 1, 0, 0, 0, 0]).1.Magic
      = ([85, 110, 105, 116, 121, 87, 101, 98, 68, 97, 116, 97, 49, 46, 48, 1, 0, 0, 0, 0]
          : List Byte).take 16 :=
  ReadFromPackageFile_magic_check NewPackage
    [85, 110, 105, 116, 121, 87, 101, 98, 68, 97, 116, 97, 49, 46, 48, 1, 0, 0, 0, 0]
    (by decide) (by decide)

/-! ## What the decoder stores -/

theorem readMetadataLoop_parse (fuel : Nat) (p : Package) (f : List Byte) (bytesRead : Nat)
    (h : (readMetadataLoop fuel p f bytesRead).2.2 = Outcome.nil) :
    ∃ new, (readMetadataLoop fuel p f bytesRead).1.FileMetadata = p.FileMetadata ++ new ∧
      ∀ (i : Nat) (m : FileMetadata), new[i]? = some m →
        m.Offset
          = le32At f (((new.take i).map (fun x => 12 + min x.FilenameLength maxRW)).sum) ∧
        m.Size
          = le32At f (((new.take i).map (fun x => 12 + min x.FilenameLength maxRW)).sum + 4) ∧
        m.FilenameLength
          = le32At f (((new.take i).map (fun x => 12 + min x.FilenameLength maxRW)).sum + 8) := by
  induction fuel generalizing p f bytesRead with
  | zero =>
    rw [readMetadataLoop] at h ⊢
    split at h
    · simp at h
    · rename_i hlt
      rw [if_neg hlt]
      exact ⟨[], by simp, by intro i m hm; simp at hm⟩
  | succ fuel ih =>
    rw [readMetadataLoop_succ] at h ⊢
    by_cases hlt : bytesRead < p.StartOffset
    · rw [if_pos hlt] at h ⊢
      by_cases hn : (FileMetadata.zero.FromPackageFile f).2.2 = Outcome.nil
      · rw [if_pos hn] at h ⊢
        obtain ⟨new, hnew, hall⟩ := ih _ _ _ h
        rcases FromPackageFile_cases FileMetadata.zero f with he | ⟨_, _, ho, hs, hl, _, hd⟩
        · rw [hn] at he
          exact absurd he (by decide)
        · refine ⟨(FileMetadata.zero.FromPackageFile f).1 :: new, ?_, ?_⟩
          · rw [hnew]
            simp
          · intro i m hm
            cases i with
            | zero =>
              simp only [List.getElem?_cons_zero, Option.some.injEq] at hm
              subst hm
              simp only [List.take_zero, List.map_nil, List.sum_nil, Nat.zero_add]
              exact ⟨ho, hs, hl⟩
            | succ i =>
              simp only [List.getElem?_cons_succ] at hm
              obtain ⟨t1, t2, t3⟩ := hall i m hm
              rw [hd] at t1 t2 t3
              simp only [le32At_drop] at t1 t2 t3
              simp only [List.take_succ_cons, List.map_cons, List.sum_cons]
              refine ⟨t1.trans ?_, t2.trans ?_, t3.trans ?_⟩ <;> congr 1
      · rw [if_neg hn] at h
        exact absurd h hn
    · rw [if_neg hlt]
      exact ⟨[], by simp, by intro i m hm; simp at hm⟩

theorem ReadFromPackageFile_parse (file : List Byte)
    (h : (NewPackage.ReadFromPackageFile file).2.2 = Outcome.nil) :
    (NewPackage.ReadFromPackageFile file).1.StartOffset = le32At file 16 ∧
    ∀ (i : Nat) (m : FileMetadata),
      (NewPackage.ReadFromPackageFile file).1.FileMetadata[i]? = some m →
      m.Offset = le32At file (20 + (((NewPackage.ReadFromPackageFile file).1.FileMetadata.take
        i).map (fun x => 12 + min x.FilenameLength maxRW)).sum) ∧
      m.Size = le32At file (20 + (((NewPackage.ReadFromPackageFile file).1.FileMetadata.take
        i).map (fun x => 12 + min x.FilenameLength maxRW)).sum + 4) ∧
      m.FilenameLength = le32At file (20 +
        (((NewPackage.ReadFromPackageFile file).1.FileMetadata.take
          i).map (fun x => 12 + min x.FilenameLength maxRW)).sum + 8) := by
  have hfile : (Read file NewPackage.Magic).file = file.drop 16 := by
    rcases Read_cases file NewPackage.Magic with ⟨_, hnil, _⟩ | ⟨_, hf, _⟩
    · subst hnil; rfl
    · rw [hf]; rfl
  rw [ReadFromPackageFile_eq] at h ⊢
  split at h
  · simp at h
  · rename_i h1
    rw [if_neg h1]
    split at h
    · simp at h
    · rename_i h2
      rw [if_neg h2]
      split at h
      · simp at h
      · rename_i h3
        rw [if_neg h3]
        split at h
        · rename_i h4
          rw [if_pos h4]
          obtain ⟨new, hnew, hall⟩ := readMetadataLoop_parse _ _ _ _ h4
          rw [(readFilesLoop_frame _ _ _).2.1, (readFilesLoop_frame _ _ _).2.2.1,
            (readMetadataLoop_frame _ _ _ _).2.1, hnew]
          have hnil : NewPackage.FileMetadata = [] := rfl
          simp only [hnil, List.nil_append, hfile, le32At_drop, List.drop_drop]
          refine ⟨trivial, ?_⟩
          intro i m hm
          obtain ⟨t1, t2, t3⟩ := hall i m hm
          simp only [hfile, List.drop_drop, le32At_drop] at t1 t2 t3
          refine ⟨t1.trans ?_, t2.trans ?_, t3.trans ?_⟩ <;> congr 1
        · rename_i h4
          exact absurd h h4

/-- C16. Decode trusts stored offsets: whenever `ReadFromPackageFile` on a fresh
`NewPackage` returns `nil`, `StartOffset` is the little-endian value of input
bytes 16 to 19, and the `Offset`, `Size` and `FilenameLength` of entry `i` are
the little-endian values of the three words of the `i`-th metadata block read
from the input. That block starts at byte 20 plus, for each block before it,
its 12 bytes of fields and the name bytes its one `Read` call takes,
`min FilenameLength (1 << 30)`; so, when every `FilenameLength` is at most
`2 ^ 30`, at byte 20 plus the lengths `12 + FilenameLength` of the blocks
before it. A byte past the end of the input reads as zero, as in the zeroed
buffer of a short read. Nothing is recomputed. -/
theorem ReadFromPackageFile_stores_input (file : List Byte)
    (h : (NewPackage.ReadFromPackageFile file).2.2 = Outcome.nil) :
    (NewPackage.ReadFromPackageFile file).1.StartOffset = le32At file 16 ∧
    (∀ (i : Nat) (m : FileMetadata),
      (NewPackage.ReadFromPackageFile file).1.FileMetadata[i]? = some m →
      m.Offset = le32At file (20 + (((NewPackage.ReadFromPackageFile file).1.FileMetadata.take
        i).map (fun x => 12 + min x.FilenameLength maxRW)).sum) ∧
      m.Size = le32At file (20 + (((NewPackage.ReadFromPackageFile file).1.FileMetadata.take
        i).map (fun x => 12 + min x.FilenameLength maxRW)).sum + 4) ∧
      m.FilenameLength = le32At file (20 +
        (((NewPackage.ReadFromPackageFile file).1.FileMetadata.take
          i).map (fun x => 12 + min x.FilenameLength maxRW)).sum + 8)) ∧
    ((∀ x ∈ (NewPackage.ReadFromPackageFile file).1.FileMetadata, x.FilenameLength ≤ 2 ^ 30) →
      ∀ (i : Nat) (m : FileMetadata),
        (NewPackage.ReadFromPackageFile file).1.FileMetadata[i]? = some m →
        m.Offset = le32At file (20 + (((NewPackage.ReadFromPackageFile file).1.FileMetadata.take
          i).map (fun x => 12 + x.FilenameLength)).sum) ∧
        m.Size = le32At file (20 + (((NewPackage.ReadFromPackageFile file).1.FileMetadata.take
          i).map (fun x => 12 + x.FilenameLength)).sum + 4) ∧
        m.FilenameLength = le32At file (20 +
          (((NewPackage.ReadFromPackageFile file).1.FileMetadata.take
            i).map (fun x => 12 + x.FilenameLength)).sum + 8)) := by
  obtain ⟨h1, h2⟩ := ReadFromPackageFile_parse file h
  refine ⟨h1, h2, ?_⟩
  intro hb i m hm
  have hmap : ((NewPackage.ReadFromPackageFile file).1.FileMetadata.take i).map
      (fun x => 12 + x.FilenameLength)
      = ((NewPackage.ReadFromPackageFile file).1.FileMetadata.take i).map
        (fun x => 12 + min x.FilenameLength maxRW) := by
    apply List.map_congr_left
    intro x hx
    have hle : x.FilenameLength ≤ maxRW := hb x (List.mem_of_mem_take hx)
    rw [Nat.min_eq_left hle]
  rw [hmap]
  exact h2 i m hm

/-- C16 at an archive of one entry whose stored `Offset` is 999 while
`RecalculateOffsets` would assign 32: the decoded entry keeps 999, the value
of input bytes 20 to 23. -/
theorem ReadFromPackageFile_stores_input_witness :
    NewPackage.ReadFromPackageFile
        [85, 110, 105, 116, 121, 87, 101, 98, 68, 97, 116, 97, 49, 46, 48, 0, 32, 0, 0, 0,
          231, 3, 0, 0, 0, 0, 0, 0, 0, 0, 0, 0]
      = (Package.mk NewPackage.Magic 32 [⟨999, 0, 0, []⟩] [⟨[]⟩], [], Outcome.nil) ∧
    (Package.mk NewPackage.Magic 32 [⟨999, 0, 0, []⟩] [⟨[]⟩]).RecalculateOffsets.FileMetadata
      = [⟨32, 0, 0, []⟩] ∧
    (999 : Nat) = le32At
        [85, 110, 105, 116, 121, 87, 101, 98, 68, 97, 116, 97, 49, 46, 48, 0, 32, 0, 0, 0,
          231, 3, 0, 0, 0, 0, 0, 0, 0, 0, 0, 0]
        (20 + (((NewPackage.ReadFromPackageFile
          [85, 110, 105, 116, 121, 87, 101, 98, 68, 97, 116, 97, 49, 46, 48, 0, 32, 0, 0, 0,
            231, 3, 0, 0, 0, 0, 0, 0, 0, 0, 0, 0]).1.FileMetadata.take 0).map
              (fun x => 12 + x.FilenameLength)).sum) :=
  ⟨by decide, by decide,
    ((ReadFromPackageFile_stores_input
      [85, 110, 105, 116, 121, 87, 101, 98, 68, 97, 116, 97, 49, 46, 48, 0, 32, 0, 0, 0,
        231, 3, 0, 0, 0, 0, 0, 0, 0, 0, 0, 0] (by decide)).2.2 (by decide) 0 ⟨999, 0, 0, []⟩
      (by decide)).1⟩

/-! ## An entry above the size of one read -/

theorem Read_capped (f b : List Byte) (hb : maxRW < b.length) (hf : maxRW ≤ f.length) :
    Read f b = ⟨maxRW, none, f.take maxRW ++ b.drop maxRW, f.drop maxRW⟩ := by
  have h4 := four_le_maxRW
  have h0 : ¬ b.length = 0 := by omega
  have h1 : ¬ f.length = 0 := by omega
  have hmin : min (min b.length maxRW) f.length = maxRW := by omega
  unfold Read
  simp only [h0, h1, if_false, hmin]

theorem RecalculateOffsets_single (mg : List Byte) (so off : Nat) (name : List Byte)
    (size : Nat) (fs : List File) (h : 32 + name.length < 2 ^ 32) :
    Package.RecalculateOffsets ⟨mg, so, [⟨off, size, name.length, name⟩], fs⟩
      = ⟨mg, 32 + name.length, [⟨32 + name.length, size, name.length, name⟩], fs⟩ := by
  rw [RecalculateOffsets_of_ne_nil _ (by simp) (by
    simp only [List.map_cons, List.map_nil, List.sum_cons, List.sum_nil]; omega)]
  simp only [List.map_cons, List.map_nil, List.sum_cons, List.sum_nil, assignOffsets]
  have e : 20 + (12 + name.length + 0) = 32 + name.length := by omega
  rw [e]

theorem buildPackage_single (name contents : List Byte)
    (h : 32 + name.length + contents.length < 2 ^ 32) :
    (buildPackage [(name, contents)]).RecalculateOffsets
      = ⟨NewPackage.Magic, 32 + name.length,
          [⟨32 + name.length, contents.length, name.length, name⟩], [⟨contents⟩]⟩ := by
  have hb : buildPackage [(name, contents)]
      = ⟨NewPackage.Magic, 0, [⟨0, contents.length, name.length, name⟩], [⟨contents⟩]⟩ := by
    rw [buildPackage_eq, map_NewFileMetadata _ (by
      simp only [List.map_cons, List.map_nil, List.sum_cons, List.sum_nil]; omega)]
    rfl
  rw [hb, RecalculateOffsets_single _ _ _ _ _ _ (by omega)]

theorem Pack_single (name : List Byte) (size : Nat) (c : List Byte)
    (h : 32 + name.length < 2 ^ 32) :
    Package.Pack ⟨NewPackage.Magic, 32 + name.length,
        [⟨32 + name.length, size, name.length, name⟩], [⟨c⟩]⟩
      = some (⟨NewPackage.Magic, 32 + name.length,
          [⟨32 + name.length, size, name.length, name⟩], [⟨c⟩]⟩,
        NewPackage.Magic ++ uint32LEToBytes (32 + name.length)
          ++ metadataBlock ⟨32 + name.length, size, name.length, name⟩ ++ c) := by
  rw [Pack_eq, RecalculateOffsets_single _ _ _ _ _ _ h,
    mapM_ToBytes _ (by
      intro m hm
      rw [List.mem_singleton] at hm
      subst hm
      exact ⟨rfl, by simp only; omega⟩)]
  simp

theorem ReadFromPackageFile_single_large (name contents : List Byte) (off : Nat)
    (hn : name.length ≤ maxRW) (hoff : off < 2 ^ 32)
    (h : 32 + name.length + contents.length < 2 ^ 32) (hc : maxRW < contents.length) :
    NewPackage.ReadFromPackageFile (NewPackage.Magic ++ uint32LEToBytes (32 + name.length)
        ++ metadataBlock ⟨off, contents.length, name.length, name⟩ ++ contents)
      = (⟨NewPackage.Magic, 32 + name.length, [⟨off, contents.length, name.length, name⟩],
          [⟨contents.take maxRW ++ make (contents.length - maxRW)⟩]⟩,
        contents.drop maxRW, Outcome.nil) := by
  rw [List.append_assoc (NewPackage.Magic ++ uint32LEToBytes (32 + name.length)),
    ReadFromPackageFile_header NewPackage NewPackage.Magic _ _ rfl (by decide) (by omega)
      sixteen_le_maxRW]
  have hloop := readMetadataLoop_blocks [⟨off, contents.length, name.length, name⟩]
    ((metadataBlock ⟨off, contents.length, name.length, name⟩ ++ contents).length + 1)
    ⟨NewPackage.Magic, 32 + name.length, NewPackage.FileMetadata, NewPackage.Files⟩
    contents 20
    (by
      intro m hm
      rw [List.mem_singleton] at hm
      subst hm
      exact ⟨rfl, hoff, by simp only; omega⟩)
    (by
      intro m hm
      rw [List.mem_singleton] at hm
      subst hm
      exact hn)
    (by simp only [List.map_cons, List.map_nil, List.sum_cons, List.sum_nil]; omega)
    (by simp only; omega)
    (by simp only [List.length_cons, List.length_nil]; omega)
  simp only [List.map_cons, List.map_nil, List.flatten_cons, List.flatten_nil,
    List.append_nil] at hloop
  rw [hloop]
  have hr := Read_capped contents (make contents.length) (by rw [make_length]; exact hc)
    (Nat.le_of_lt hc)
  rw [make_drop] at hr
  simp only [NewPackage, List.nil_append, readFilesLoop, hr]

theorem encodedLength_single (name contents : List Byte) :
    encodedLength [(name, contents)] = 32 + name.length + contents.length := by
  simp only [encodedLength, List.map_cons, List.map_nil, List.sum_cons, List.sum_nil]
  omega

theorem replicate_cut_ne :
    (List.replicate 1073741824 7 ++ List.replicate 5 0 : List Byte)
      ≠ List.replicate 1073741829 7 := by
  intro h
  have h1 := congrArg (fun l => l[1073741824]?) h
  simp only [] at h1
  rw [List.getElem?_append_right (by rw [List.length_replicate]),
    List.length_replicate, List.getElem?_replicate, List.getElem?_replicate] at h1
  revert h1
  decide

theorem large_entry_take :
    (List.replicate 1073741829 7 : List Byte).take maxRW
        ++ make ((List.replicate 1073741829 7 : List Byte).length - maxRW)
      = List.replicate 1073741824 7 ++ List.replicate 5 0 := by
  have e1 : min maxRW 1073741829 = 1073741824 := by decide
  have e2 : 1073741829 - maxRW = 5 := by decide
  rw [List.take_replicate, List.length_replicate, e1, e2]
  rfl

theorem large_entry_drop :
    (List.replicate 1073741829 7 : List Byte).drop maxRW = List.replicate 5 7 := by
  have e2 : 1073741829 - maxRW = 5 := by decide
  rw [List.drop_replicate, e2]

theorem large_entry_pack :
    (buildPackage [([97], List.replicate 1073741829 7)]).Pack
      = some (⟨NewPackage.Magic, 32 + ([97] : List Byte).length,
          [⟨32 + ([97] : List Byte).length, (List.replicate 1073741829 7 : List Byte).length,
            ([97] : List Byte).length, [97]⟩], [⟨List.replicate 1073741829 7⟩]⟩,
        NewPackage.Magic ++ uint32LEToBytes (32 + ([97] : List Byte).length)
          ++ metadataBlock ⟨32 + ([97] : List Byte).length,
            (List.replicate 1073741829 7 : List Byte).length, ([97] : List Byte).length, [97]⟩
          ++ List.replicate 1073741829 7) := by
  rw [← Pack_RecalculateOffsets, buildPackage_single _ _ (by
    rw [List.length_replicate]; decide)]
  exact Pack_single _ _ _ (by decide)

theorem large_entry_read :
    NewPackage.ReadFromPackageFile
        (NewPackage.Magic ++ uint32LEToBytes (32 + ([97] : List Byte).length)
          ++ metadataBlock ⟨32 + ([97] : List Byte).length,
            (List.replicate 1073741829 7 : List Byte).length, ([97] : List Byte).length, [97]⟩
          ++ List.replicate 1073741829 7)
      = (⟨NewPackage.Magic, 32 + ([97] : List Byte).length,
          [⟨32 + ([97] : List Byte).length, (List.replicate 1073741829 7 : List Byte).length,
            ([97] : List Byte).length, [97]⟩],
          [⟨List.replicate 1073741824 7 ++ List.replicate 5 0⟩]⟩,
        List.replicate 5 7, Outcome.nil) := by
  rw [ReadFromPackageFile_single_large [97] (List.replicate 1073741829 7) _ (by decide)
    (by decide) (by rw [List.length_replicate]; decide)
    (by rw [List.length_replicate]; decide), large_entry_take, large_entry_drop]

/-- C1. Round trip of an entry above the size of one read: the package built
by `AddFile("a", contents)` with 1073741829 bytes of value 7 has an encoded
length below `2 ^ 32`, and `Pack` returns bytes `b`; but `ReadFromPackageFile`
on `b` into a fresh `NewPackage` returns `nil` with `Contents` made of the
`1 << 30` bytes its one `Read` call took followed by 5 zero bytes, and leaves
the last 5 bytes of `b` unread: the files read are not the files packed. -/
theorem Pack_ReadFromPackageFile_large_entry :
    encodedLength [([97], List.replicate 1073741829 7)] < 2 ^ 32 ∧
    ∃ q b q', (buildPackage [([97], List.replicate 1073741829 7)]).Pack = some (q, b) ∧
      q.Files = [⟨List.replicate 1073741829 7⟩] ∧
      NewPackage.ReadFromPackageFile b = (q', List.replicate 5 7, Outcome.nil) ∧
      q'.Files = [⟨List.replicate 1073741824 7 ++ List.replicate 5 0⟩] ∧
      q'.Files ≠ q.Files := by
  refine ⟨?_, _, _, _, large_entry_pack, rfl, large_entry_read, rfl, ?_⟩
  · rw [encodedLength_single, List.length_replicate]
    decide
  · intro h
    simp only [List.cons.injEq, File.mk.injEq, and_true] at h
    exact replicate_cut_ne h

/-- C19. Packing what was read from an entry above the size of one read: with
`b` the bytes `Pack` returns for the package built by `AddFile("a", contents)`
with 1073741829 bytes of value 7 (encoded length below `2 ^ 32`),
`ReadFromPackageFile` on `b` into a fresh `NewPackage` returns `nil` with a
package `q` (5 bytes of `b` left unread), and `Pack` on `q` returns bytes that
differ from `b`. -/
theorem Pack_Read_Pack_large_entry :
    encodedLength [([97], List.replicate 1073741829 7)] < 2 ^ 32 ∧
    ∃ b q b', ((buildPackage [([97], List.replicate 1073741829 7)]).Pack).map Prod.snd = some b ∧
      NewPackage.ReadFromPackageFile b = (q, List.replicate 5 7, Outcome.nil) ∧
      q.Pack = some (q, b') ∧ b' ≠ b := by
  refine ⟨?_, _, _, _, ?_, large_entry_read, Pack_single _ _ _ (by decide), ?_⟩
  · rw [encodedLength_single, List.length_replicate]
    decide
  · rw [large_entry_pack]
    rfl
  · intro h
    exact replicate_cut_ne (List.append_cancel_left h)

end UnityWeb
